import Mathlib

/-!
Verification development for the glabra sequence-generation library.

The embedding follows the Python sources:
  * `glabra/dedge.py`  — `DirectedEdgeGetter`, the overlap index over n-gram pools;
  * `glabra/graph.py`  — `GraphPathFinder`, the bidirectional step-set builder and
    the path enumerator / random path sampler;
  * `glabra/create.py` — `SequenceCreator`, the sequence assembler.

Vertices of the path-finder are kept abstract (`V` with decidable equality);
n-grams are modelled as `List Char`.  Python sets become `Finset`s, fallible
constructors/operations return `Except String`, and the injected randomness of
`random.choice` / `random.randint` is modelled by an explicit chooser function
`pick : Finset V → V` (constrained to choose members of non-empty sets) and an
explicit seed-step argument.
-/

set_option linter.unusedSectionVars false

namespace Glabra

variable {V : Type} [DecidableEq V]

/-- Python iterates over hash sets in an unspecified order (`list(set)`); the
embedding fixes a concrete enumeration order by sorting, which requires a
linear order on vertices (all vertex types used are linearly ordered).
Insertion sort is used because it is structurally recursive, so concrete
instances evaluate inside the kernel. -/
def enumList [LinearOrder V] (s : Finset V) : List V :=
  Quot.liftOn s.val (fun l => l.insertionSort (· ≤ ·)) fun l₁ l₂ h =>
    List.eq_of_perm_of_sorted
      ((l₁.perm_insertionSort (· ≤ ·)).trans
        (h.trans (l₂.perm_insertionSort (· ≤ ·)).symm))
      (l₁.sorted_insertionSort (· ≤ ·)) (l₂.sorted_insertionSort (· ≤ ·))

theorem mem_enumList [LinearOrder V] {s : Finset V} {v : V} :
    v ∈ enumList s ↔ v ∈ s := by
  rcases s with ⟨m, hm⟩
  induction m using Quotient.inductionOn with
  | h l =>
    show v ∈ l.insertionSort (· ≤ ·) ↔ _
    rw [(l.perm_insertionSort (· ≤ ·)).mem_iff]
    rfl

theorem enumList_nodup [LinearOrder V] (s : Finset V) : (enumList s).Nodup := by
  rcases s with ⟨m, hm⟩
  induction m using Quotient.inductionOn with
  | h l =>
    show (l.insertionSort (· ≤ ·)).Nodup
    rw [(l.perm_insertionSort (· ≤ ·)).nodup_iff]
    exact hm

/-- The interface of `DirectedEdgeGetter` as consumed by `GraphPathFinder`
(graph.py): a pair of functions giving the out-neighbours
(`get_end_vertices`) and in-neighbours (`get_start_vertices`) of a vertex. -/
structure DEdge (V : Type) where
  getEnd : V → Finset V
  getStart : V → Finset V

/-- The documented contract of a directed edge getter (graph.py docstring):
every edge is listed in both directions. -/
def DEdge.Symm (d : DEdge V) : Prop :=
  ∀ u v : V, v ∈ d.getEnd u ↔ u ∈ d.getStart v

instance (d : DEdge V) [Fintype V] : Decidable d.Symm := by
  unfold DEdge.Symm; infer_instance

/-- `_expand(the_set, expand_fn)` from graph.py: the union of `expand_fn x`
over all `x` in the set. -/
def dexpand (s : Finset V) (f : V → Finset V) : Finset V :=
  s.biUnion f

theorem mem_dexpand {s : Finset V} {f : V → Finset V} {v : V} :
    v ∈ dexpand s f ↔ ∃ u ∈ s, v ∈ f u := Finset.mem_biUnion

/-- The while-loop of `GraphPathFinder._build_step_sets` (graph.py lines
209-229): while the gap between the two frontier indices is more than one, the
smaller frontier is expanded one step inward; an empty expansion marks the
graph disconnected.  The extra `fuel` argument is only a structural-recursion
bound: it is consumed once per loop iteration, and the builder supplies
`fuel = l - e`, which exceeds the number of iterations actually performed, so
the `fuel = 0` base case is reached only when the loop guard already fails.
Returns (step sets, earlier index, later index, disconnected flag). -/
def buildPhase1 (d : DEdge V) : (Nat → Finset V) → Nat → Nat → Nat →
    ((Nat → Finset V) × Nat × Nat × Bool)
  | steps, e, l, 0 => (steps, e, l, false)
  | steps, e, l, fuel + 1 =>
    if e + 1 < l then
      if (steps e).card < (steps l).card then
        let s := dexpand (steps e) d.getEnd
        let steps' := Function.update steps (e + 1) s
        if s = ∅ then (steps', e + 1, l, true)
        else buildPhase1 d steps' (e + 1) l fuel
      else
        let s := dexpand (steps l) d.getStart
        let steps' := Function.update steps (l - 1) s
        if s = ∅ then (steps', e, l - 1, true)
        else buildPhase1 d steps' e (l - 1) fuel
    else (steps, e, l, false)

/-- The forward filtering sweep of `_build_step_sets` (graph.py lines
231-236): for `i` from the earlier index up to `n - 2`, intersect step
`i + 1` with the expansion of step `i`; an empty result marks the graph
disconnected.  `k` is the number of remaining iterations (`n - 1 - i`). -/
def forwardFilter (d : DEdge V) : (Nat → Finset V) → Nat → Nat →
    ((Nat → Finset V) × Bool)
  | steps, _, 0 => (steps, false)
  | steps, i, k + 1 =>
    let s := steps (i + 1) ∩ dexpand (steps i) d.getEnd
    let steps' := Function.update steps (i + 1) s
    if s = ∅ then (steps', true) else forwardFilter d steps' (i + 1) k

/-- The backward filtering sweep of `_build_step_sets` (graph.py lines
238-243): for `i` from the later index down to 1, intersect step `i - 1` with
the backward expansion of step `i`; an empty result marks the graph
disconnected. -/
def backwardFilter (d : DEdge V) : (Nat → Finset V) → Nat →
    ((Nat → Finset V) × Bool)
  | steps, 0 => (steps, false)
  | steps, i + 1 =>
    let s := steps i ∩ dexpand (steps (i + 1)) d.getStart
    let steps' := Function.update steps i s
    if s = ∅ then (steps', true) else backwardFilter d steps' i

/-- The state of a constructed `GraphPathFinder` (graph.py): the list of
reachable vertex sets per step (as a function from step index), the number of
vertices of every path, the edge getter, and the disconnected flag. -/
structure GraphPathFinder (V : Type) where
  stepSets : Nat → Finset V
  numVertices : Nat
  dedge : DEdge V
  isDisconnected : Bool

/-- The initial step sets (graph.py lines 204-206): step 0 is a copy of the
start set, step `n - 1` a copy of the end set (assigned second, so it wins on
a clash), all other steps empty. -/
def initSteps (s e : Finset V) (n : Nat) : Nat → Finset V :=
  fun i => if i = n - 1 then e else if i = 0 then s else ∅

/-- `GraphPathFinder._build_step_sets` (graph.py lines 188-243) run after the
constructor's validation: the three sweeps run in order, stopping at the
first one that reports disconnection (the Python early `return`s). -/
def buildGPF (s e : Finset V) (n : Nat) (d : DEdge V) : GraphPathFinder V :=
  match buildPhase1 d (initSteps s e n) 0 (n - 1) (n - 1) with
  | (st1, _, _, true) => ⟨st1, n, d, true⟩
  | (st1, e1, l1, false) =>
    match forwardFilter d st1 e1 (n - 1 - e1) with
    | (st2, true) => ⟨st2, n, d, true⟩
    | (st2, false) =>
      match backwardFilter d st2 l1 with
      | (st3, dis3) => ⟨st3, n, d, dis3⟩

/-- `GraphPathFinder.__init__` (graph.py lines 60-99): validation of the
start/end sets and of the vertex count (a Python `int`, hence `Int` here),
then the build.  Construction failures (`ValueError`) are `Except.error`. -/
def mkGraphPathFinder (s e : Finset V) (numVertices : Int) (d : DEdge V) :
    Except String (GraphPathFinder V) :=
  if s.card < 1 then .error "Set of start vertices must be non empty."
  else if e.card < 1 then .error "Set of end vertices must be non empty."
  else if numVertices < 2 then .error "Number of connected vertices must be greater than one."
  else .ok (buildGPF s e numVertices.toNat d)

/-- The depth-first enumeration of `_get_all_paths_generator` (graph.py lines
157-186), written as the structural recursion the iterative stack machine
implements: from vertex `v` at some step, with `k` steps remaining, the paths
are `v` prepended to every path from every candidate of the next step, the
candidates being `get_end_vertices(v)` intersected with the next step set;
with no steps remaining the singleton path is yielded. -/
def pathsFrom [LinearOrder V] (d : DEdge V) (steps : Nat → Finset V) :
    V → Nat → Nat → List (List V)
  | v, _, 0 => [[v]]
  | v, i, k + 1 =>
    (enumList (d.getEnd v ∩ steps (i + 1))).flatMap fun w =>
      (pathsFrom d steps w (i + 1) k).map (List.cons v)

/-- All paths yielded by the generator: one DFS from every vertex of step 0. -/
def getAllPathsList [LinearOrder V] (g : GraphPathFinder V) : List (List V) :=
  (enumList (g.stepSets 0)).flatMap fun v =>
    pathsFrom g.dedge g.stepSets v 0 (g.numVertices - 1)

/-- `GraphPathFinder.get_all_paths` (graph.py lines 144-155): fails with the
disconnected error when the flag is set, otherwise returns the enumeration. -/
def getAllPaths [LinearOrder V] (g : GraphPathFinder V) : Except String (List (List V)) :=
  if g.isDisconnected then .error "Start and end vertices are disconnected."
  else .ok (getAllPathsList g)

/-- The "fill earlier steps" loop of `get_random_path` (graph.py lines
132-135): from vertex `v` at step `i`, repeatedly pick a random member of
`get_start_vertices(current) ∩ step_sets[position - 1]` down to step 0,
returning the list for positions `0 .. i`.  An empty candidate set (where
`random.choice` would raise) yields `none`. -/
def fillDown (d : DEdge V) (steps : Nat → Finset V) (pick : Finset V → V) :
    V → Nat → Option (List V)
  | v, 0 => some [v]
  | v, i + 1 =>
    let c := d.getStart v ∩ steps i
    if c = ∅ then none
    else (fillDown d steps pick (pick c) i).map (· ++ [v])

/-- The "fill later steps" loop of `get_random_path` (graph.py lines
137-140): from vertex `v` at step `i`, with `k` steps remaining, repeatedly
pick a random member of `get_end_vertices(current) ∩ step_sets[position + 1]`,
returning the list for positions `i .. i + k`. -/
def fillUp (d : DEdge V) (steps : Nat → Finset V) (pick : Finset V → V) :
    V → Nat → Nat → Option (List V)
  | v, _, 0 => some [v]
  | v, i, k + 1 =>
    let c := d.getEnd v ∩ steps (i + 1)
    if c = ∅ then none
    else (fillUp d steps pick (pick c) (i + 1) k).map (List.cons v)

/-- `GraphPathFinder.get_random_path` (graph.py lines 109-142).  The random
source is modelled by the seed step index `k` (Python's
`random.randint(0, num_vertices - 1)`) and the chooser `pick` (Python's
`random.choice`); an empty set handed to the chooser is the error case. -/
def getRandomPath (g : GraphPathFinder V) (k : Nat) (pick : Finset V → V) :
    Except String (List V) :=
  if g.isDisconnected then .error "Start and end vertices are disconnected."
  else
    let s := g.stepSets k
    if s = ∅ then .error "empty random choice"
    else
      let seed := pick s
      match fillDown g.dedge g.stepSets pick seed k,
            fillUp g.dedge g.stepSets pick seed k (g.numVertices - 1 - k) with
      | some down, some up => .ok (down ++ up.tail)
      | _, _ => .error "empty random choice"

/-- A valid path of the path finder (graph.py docstrings of `get_random_path`
and `get_all_paths`): a tuple of exactly `n` vertices whose first vertex is a
start vertex, whose last vertex is an end vertex, and in which every
consecutive pair is connected according to the directed edge getter. -/
def IsValidPath (s e : Finset V) (d : DEdge V) (n : Nat) : List V → Prop
  | [] => False
  | a :: l =>
    (a :: l).length = n ∧ a ∈ s ∧ (a :: l).getLast (List.cons_ne_nil a l) ∈ e ∧
      List.Chain' (fun x y => y ∈ d.getEnd x) (a :: l)

/-! ## Invariants of the forward filtering sweep -/

theorem forwardFilter_frame (d : DEdge V) :
    ∀ (k : Nat) (steps : Nat → Finset V) (i j : Nat), j ≤ i ∨ i + k < j →
      (forwardFilter d steps i k).1 j = steps j
  | 0, _, _, _, _ => rfl
  | k + 1, steps, i, j, hj => by
    simp only [forwardFilter]
    by_cases hemp : steps (i + 1) ∩ dexpand (steps i) d.getEnd = ∅
    · rw [if_pos hemp]
      exact Function.update_noteq (by omega) _ _
    · rw [if_neg hemp, forwardFilter_frame d k _ (i + 1) j (by omega)]
      exact Function.update_noteq (by omega) _ _

theorem update_inter_subset {steps : Nat → Finset V} {m j : Nat} {t : Finset V} :
    Function.update steps m (steps m ∩ t) j ⊆ steps j := by
  by_cases hj : j = m
  · subst hj
    rw [Function.update_same]
    exact Finset.inter_subset_left
  · rw [Function.update_noteq hj]

theorem forwardFilter_subset (d : DEdge V) :
    ∀ (k : Nat) (steps : Nat → Finset V) (i j : Nat),
      (forwardFilter d steps i k).1 j ⊆ steps j
  | 0, _, _, _ => fun _ h => h
  | k + 1, steps, i, j => by
    simp only [forwardFilter]
    by_cases hemp : steps (i + 1) ∩ dexpand (steps i) d.getEnd = ∅
    · rw [if_pos hemp]
      exact update_inter_subset
    · rw [if_neg hemp]
      exact (forwardFilter_subset d k _ (i + 1) j).trans update_inter_subset

theorem forwardFilter_exact (d : DEdge V) :
    ∀ (k : Nat) (steps : Nat → Finset V) (i : Nat),
      (forwardFilter d steps i k).2 = false →
      ∀ j, i + 1 ≤ j → j ≤ i + k →
        (forwardFilter d steps i k).1 j =
          steps j ∩ dexpand ((forwardFilter d steps i k).1 (j - 1)) d.getEnd
  | 0, _, _, _, _, h1, h2 => absurd (h1.trans h2) (by omega)
  | k + 1, steps, i, hflag, j, hj1, hj2 => by
    simp only [forwardFilter] at hflag ⊢
    by_cases hemp : steps (i + 1) ∩ dexpand (steps i) d.getEnd = ∅
    · rw [if_pos hemp] at hflag
      exact absurd hflag (by simp)
    · rw [if_neg hemp] at hflag ⊢
      rcases Nat.eq_or_lt_of_le hj1 with hj | hj
      · obtain rfl : j = i + 1 := hj.symm
        rw [forwardFilter_frame d k _ (i + 1) (i + 1) (by omega),
          forwardFilter_frame d k _ (i + 1) (i + 1 - 1) (by omega)]
        rw [Function.update_same, show i + 1 - 1 = i from rfl,
          Function.update_noteq (by omega : i ≠ i + 1)]
      · rw [forwardFilter_exact d k _ (i + 1) hflag j (by omega) (by omega),
          Function.update_noteq (by omega : j ≠ i + 1)]

theorem forwardFilter_ne (d : DEdge V) :
    ∀ (k : Nat) (steps : Nat → Finset V) (i : Nat),
      (forwardFilter d steps i k).2 = false →
      ∀ j, i + 1 ≤ j → j ≤ i + k → (forwardFilter d steps i k).1 j ≠ ∅
  | 0, _, _, _, _, h1, h2 => absurd (h1.trans h2) (by omega)
  | k + 1, steps, i, hflag, j, hj1, hj2 => by
    simp only [forwardFilter] at hflag ⊢
    by_cases hemp : steps (i + 1) ∩ dexpand (steps i) d.getEnd = ∅
    · rw [if_pos hemp] at hflag
      exact absurd hflag (by simp)
    · rw [if_neg hemp] at hflag ⊢
      rcases Nat.eq_or_lt_of_le hj1 with hj | hj
      · obtain rfl : j = i + 1 := hj.symm
        rw [forwardFilter_frame d k _ (i + 1) (i + 1) (by omega),
          Function.update_same]
        exact hemp
      · exact forwardFilter_ne d k _ (i + 1) hflag j (by omega) (by omega)

theorem forwardFilter_complete (d : DEdge V) :
    ∀ (k : Nat) (steps : Nat → Finset V) (i : Nat) (f : Nat → V),
      (∀ j, j + 1 ≤ i + k → f (j + 1) ∈ d.getEnd (f j)) →
      (∀ j, j ≤ i + k → f j ∈ steps j) →
      (forwardFilter d steps i k).2 = false ∧
        ∀ j, j ≤ i + k → f j ∈ (forwardFilter d steps i k).1 j
  | 0, _, _, _, _, hin => ⟨rfl, hin⟩
  | k + 1, steps, i, f, hedge, hin => by
    have hmem : f (i + 1) ∈ steps (i + 1) ∩ dexpand (steps i) d.getEnd := by
      refine Finset.mem_inter.mpr ⟨hin (i + 1) (by omega), ?_⟩
      exact mem_dexpand.mpr ⟨f i, hin i (by omega), hedge i (by omega)⟩
    have hemp : ¬(steps (i + 1) ∩ dexpand (steps i) d.getEnd = ∅) :=
      Finset.ne_empty_of_mem hmem
    have hrec := forwardFilter_complete d k
      (Function.update steps (i + 1) (steps (i + 1) ∩ dexpand (steps i) d.getEnd))
      (i + 1) f
      (fun j hj => hedge j (by omega))
      (fun j hj => by
        by_cases hji : j = i + 1
        · subst hji
          rw [Function.update_same]
          exact hmem
        · rw [Function.update_noteq hji]
          exact hin j (by omega))
    simp only [forwardFilter, if_neg hemp]
    exact ⟨hrec.1, fun j hj => hrec.2 j (by omega)⟩

/-! ## Invariants of the backward filtering sweep -/

theorem backwardFilter_frame (d : DEdge V) :
    ∀ (i : Nat) (steps : Nat → Finset V) (j : Nat), i ≤ j →
      (backwardFilter d steps i).1 j = steps j
  | 0, _, _, _ => rfl
  | i + 1, steps, j, hj => by
    simp only [backwardFilter]
    by_cases hemp : steps i ∩ dexpand (steps (i + 1)) d.getStart = ∅
    · rw [if_pos hemp]
      exact Function.update_noteq (by omega) _ _
    · rw [if_neg hemp, backwardFilter_frame d i _ j (by omega)]
      exact Function.update_noteq (by omega) _ _

theorem backwardFilter_subset (d : DEdge V) :
    ∀ (i : Nat) (steps : Nat → Finset V) (j : Nat),
      (backwardFilter d steps i).1 j ⊆ steps j
  | 0, _, _ => fun _ h => h
  | i + 1, steps, j => by
    simp only [backwardFilter]
    by_cases hemp : steps i ∩ dexpand (steps (i + 1)) d.getStart = ∅
    · rw [if_pos hemp]
      exact update_inter_subset
    · rw [if_neg hemp]
      exact (backwardFilter_subset d i _ j).trans update_inter_subset

theorem backwardFilter_exact (d : DEdge V) :
    ∀ (i : Nat) (steps : Nat → Finset V),
      (backwardFilter d steps i).2 = false →
      ∀ j, j < i →
        (backwardFilter d steps i).1 j =
          steps j ∩ dexpand ((backwardFilter d steps i).1 (j + 1)) d.getStart
  | 0, _, _, _, hj => absurd hj (by omega)
  | i + 1, steps, hflag, j, hj => by
    simp only [backwardFilter] at hflag ⊢
    by_cases hemp : steps i ∩ dexpand (steps (i + 1)) d.getStart = ∅
    · rw [if_pos hemp] at hflag
      exact absurd hflag (by simp)
    · rw [if_neg hemp] at hflag ⊢
      rcases Nat.lt_succ_iff_lt_or_eq.mp hj with hj' | hj'
      · rw [backwardFilter_exact d i _ hflag j hj',
          Function.update_noteq (by omega : j ≠ i)]
      · subst hj'
        rw [backwardFilter_frame d j _ j le_rfl,
          backwardFilter_frame d j _ (j + 1) (by omega)]
        rw [Function.update_same, Function.update_noteq (by omega : j + 1 ≠ j)]

theorem backwardFilter_ne (d : DEdge V) :
    ∀ (i : Nat) (steps : Nat → Finset V),
      (backwardFilter d steps i).2 = false →
      ∀ j, j < i → (backwardFilter d steps i).1 j ≠ ∅
  | 0, _, _, _, hj => absurd hj (by omega)
  | i + 1, steps, hflag, j, hj => by
    simp only [backwardFilter] at hflag ⊢
    by_cases hemp : steps i ∩ dexpand (steps (i + 1)) d.getStart = ∅
    · rw [if_pos hemp] at hflag
      exact absurd hflag (by simp)
    · rw [if_neg hemp] at hflag ⊢
      rcases Nat.lt_succ_iff_lt_or_eq.mp hj with hj' | hj'
      · exact backwardFilter_ne d i _ hflag j hj'
      · subst hj'
        rw [backwardFilter_frame d j _ j le_rfl, Function.update_same]
        exact hemp

theorem backwardFilter_complete (d : DEdge V) :
    ∀ (i : Nat) (steps : Nat → Finset V) (f : Nat → V) (m : Nat),
      d.Symm → i ≤ m →
      (∀ j, j + 1 ≤ m → f (j + 1) ∈ d.getEnd (f j)) →
      (∀ j, j ≤ m → f j ∈ steps j) →
      (backwardFilter d steps i).2 = false ∧
        ∀ j, j ≤ m → f j ∈ (backwardFilter d steps i).1 j
  | 0, _, _, _, _, _, _, hin => ⟨rfl, hin⟩
  | i + 1, steps, f, m, hsym, him, hedge, hin => by
    have hedge' : f i ∈ d.getStart (f (i + 1)) :=
      (hsym (f i) (f (i + 1))).mp (hedge i him)
    have hmem : f i ∈ steps i ∩ dexpand (steps (i + 1)) d.getStart := by
      refine Finset.mem_inter.mpr ⟨hin i (by omega), ?_⟩
      exact mem_dexpand.mpr ⟨f (i + 1), hin (i + 1) him, hedge'⟩
    have hemp : ¬(steps i ∩ dexpand (steps (i + 1)) d.getStart = ∅) :=
      Finset.ne_empty_of_mem hmem
    have hrec := backwardFilter_complete d i
      (Function.update steps i (steps i ∩ dexpand (steps (i + 1)) d.getStart))
      f m hsym (by omega) hedge
      (fun j hj => by
        by_cases hji : j = i
        · subst hji
          rw [Function.update_same]
          exact hmem
        · rw [Function.update_noteq hji]
          exact hin j hj)
    simp only [backwardFilter, if_neg hemp]
    exact hrec

/-! ## Invariants of the bidirectional while loop -/

theorem buildPhase1_frame (d : DEdge V) :
    ∀ (fuel : Nat) (steps : Nat → Finset V) (e l j : Nat), e < l →
      (j ≤ e ∨ l ≤ j) → (buildPhase1 d steps e l fuel).1 j = steps j
  | 0, _, _, _, _, _, _ => rfl
  | fuel + 1, steps, e, l, j, hel, hj => by
    simp only [buildPhase1]
    by_cases hgap : e + 1 < l
    · rw [if_pos hgap]
      by_cases hcard : (steps e).card < (steps l).card
      · rw [if_pos hcard]
        by_cases hemp : dexpand (steps e) d.getEnd = ∅
        · rw [if_pos hemp]
          exact Function.update_noteq (by omega) _ _
        · rw [if_neg hemp,
            buildPhase1_frame d fuel _ (e + 1) l j (by omega) (by omega)]
          exact Function.update_noteq (by omega) _ _
      · rw [if_neg hcard]
        by_cases hemp : dexpand (steps l) d.getStart = ∅
        · rw [if_pos hemp]
          exact Function.update_noteq (by omega) _ _
        · rw [if_neg hemp,
            buildPhase1_frame d fuel _ e (l - 1) j (by omega) (by omega)]
          exact Function.update_noteq (by omega) _ _
    · rw [if_neg hgap]

theorem buildPhase1_exit (d : DEdge V) :
    ∀ (fuel : Nat) (steps : Nat → Finset V) (e l : Nat), e < l →
      l ≤ e + 1 + fuel → (buildPhase1 d steps e l fuel).2.2.2 = false →
      e ≤ (buildPhase1 d steps e l fuel).2.1 ∧
        (buildPhase1 d steps e l fuel).2.2.1 ≤ l ∧
        (buildPhase1 d steps e l fuel).2.1 + 1 = (buildPhase1 d steps e l fuel).2.2.1
  | 0, _, e, l, hel, hfuel, _ => by
    refine ⟨le_refl _, le_refl _, ?_⟩
    show e + 1 = l
    omega
  | fuel + 1, steps, e, l, hel, hfuel, hflag => by
    simp only [buildPhase1] at hflag ⊢
    by_cases hgap : e + 1 < l
    · rw [if_pos hgap] at hflag ⊢
      by_cases hcard : (steps e).card < (steps l).card
      · rw [if_pos hcard] at hflag ⊢
        by_cases hemp : dexpand (steps e) d.getEnd = ∅
        · rw [if_pos hemp] at hflag
          exact absurd hflag (by simp)
        · rw [if_neg hemp] at hflag ⊢
          have := buildPhase1_exit d fuel _ (e + 1) l (by omega) (by omega) hflag
          exact ⟨by omega, this.2.1, this.2.2⟩
      · rw [if_neg hcard] at hflag ⊢
        by_cases hemp : dexpand (steps l) d.getStart = ∅
        · rw [if_pos hemp] at hflag
          exact absurd hflag (by simp)
        · rw [if_neg hemp] at hflag ⊢
          have := buildPhase1_exit d fuel _ e (l - 1) (by omega) (by omega) hflag
          exact ⟨this.1, by omega, this.2.2⟩
    · rw [if_neg hgap]
      refine ⟨le_refl _, le_refl _, ?_⟩
      show e + 1 = l
      omega

theorem buildPhase1_E1 (d : DEdge V) :
    ∀ (fuel : Nat) (steps : Nat → Finset V) (e l : Nat), e < l →
      (∀ j, 1 ≤ j → j ≤ e → steps j = dexpand (steps (j - 1)) d.getEnd) →
      (buildPhase1 d steps e l fuel).2.2.2 = false →
      ∀ j, 1 ≤ j → j ≤ (buildPhase1 d steps e l fuel).2.1 →
        (buildPhase1 d steps e l fuel).1 j =
          dexpand ((buildPhase1 d steps e l fuel).1 (j - 1)) d.getEnd
  | 0, _, _, _, _, hE1, _ => hE1
  | fuel + 1, steps, e, l, hel, hE1, hflag => by
    simp only [buildPhase1] at hflag ⊢
    by_cases hgap : e + 1 < l
    · rw [if_pos hgap] at hflag ⊢
      by_cases hcard : (steps e).card < (steps l).card
      · rw [if_pos hcard] at hflag ⊢
        by_cases hemp : dexpand (steps e) d.getEnd = ∅
        · rw [if_pos hemp] at hflag
          exact absurd hflag (by simp)
        · rw [if_neg hemp] at hflag ⊢
          refine buildPhase1_E1 d fuel _ (e + 1) l (by omega) ?_ hflag
          intro j hj1 hj2
          rcases Nat.eq_or_lt_of_le hj2 with hj | hj
          · obtain rfl : j = e + 1 := hj
            rw [Function.update_same, Nat.add_sub_cancel,
              Function.update_noteq (by omega : e ≠ e + 1)]
          · rw [Function.update_noteq (by omega : j ≠ e + 1),
              Function.update_noteq (by omega : j - 1 ≠ e + 1)]
            exact hE1 j hj1 (by omega)
      · rw [if_neg hcard] at hflag ⊢
        by_cases hemp : dexpand (steps l) d.getStart = ∅
        · rw [if_pos hemp] at hflag
          exact absurd hflag (by simp)
        · rw [if_neg hemp] at hflag ⊢
          refine buildPhase1_E1 d fuel _ e (l - 1) (by omega) ?_ hflag
          intro j hj1 hj2
          rw [Function.update_noteq (by omega : j ≠ l - 1),
            Function.update_noteq (by omega : j - 1 ≠ l - 1)]
          exact hE1 j hj1 hj2
    · rw [if_neg hgap]
      exact hE1

theorem buildPhase1_E2 (d : DEdge V) :
    ∀ (fuel : Nat) (steps : Nat → Finset V) (e l m : Nat), e < l → l ≤ m + 1 →
      (∀ j, l ≤ j → j ≤ m → steps j = dexpand (steps (j + 1)) d.getStart) →
      (buildPhase1 d steps e l fuel).2.2.2 = false →
      ∀ j, (buildPhase1 d steps e l fuel).2.2.1 ≤ j → j ≤ m →
        (buildPhase1 d steps e l fuel).1 j =
          dexpand ((buildPhase1 d steps e l fuel).1 (j + 1)) d.getStart
  | 0, _, _, _, _, _, _, hE2, _ => hE2
  | fuel + 1, steps, e, l, m, hel, hlm, hE2, hflag => by
    simp only [buildPhase1] at hflag ⊢
    by_cases hgap : e + 1 < l
    · rw [if_pos hgap] at hflag ⊢
      by_cases hcard : (steps e).card < (steps l).card
      · rw [if_pos hcard] at hflag ⊢
        by_cases hemp : dexpand (steps e) d.getEnd = ∅
        · rw [if_pos hemp] at hflag
          exact absurd hflag (by simp)
        · rw [if_neg hemp] at hflag ⊢
          refine buildPhase1_E2 d fuel _ (e + 1) l m (by omega) hlm ?_ hflag
          intro j hj1 hj2
          rw [Function.update_noteq (by omega : j ≠ e + 1),
            Function.update_noteq (by omega : j + 1 ≠ e + 1)]
          exact hE2 j hj1 hj2
      · rw [if_neg hcard] at hflag ⊢
        by_cases hemp : dexpand (steps l) d.getStart = ∅
        · rw [if_pos hemp] at hflag
          exact absurd hflag (by simp)
        · rw [if_neg hemp] at hflag ⊢
          refine buildPhase1_E2 d fuel _ e (l - 1) m (by omega) (by omega) ?_ hflag
          intro j hj1 hj2
          rcases Nat.eq_or_lt_of_le hj1 with hj | hj
          · obtain rfl : j = l - 1 := hj.symm
            rw [Function.update_same, show l - 1 + 1 = l by omega,
              Function.update_noteq (by omega : l ≠ l - 1)]
          · rw [Function.update_noteq (by omega : j ≠ l - 1),
              Function.update_noteq (by omega : j + 1 ≠ l - 1)]
            exact hE2 j (by omega) hj2
    · rw [if_neg hgap]
      exact hE2

theorem buildPhase1_complete (d : DEdge V) :
    ∀ (fuel : Nat) (steps : Nat → Finset V) (e l : Nat) (f : Nat → V) (m : Nat),
      d.Symm → e < l → l ≤ m →
      (∀ j, j + 1 ≤ m → f (j + 1) ∈ d.getEnd (f j)) →
      (∀ j, (j ≤ e ∨ l ≤ j) → j ≤ m → f j ∈ steps j) →
      (buildPhase1 d steps e l fuel).2.2.2 = false ∧
        ∀ j, (j ≤ (buildPhase1 d steps e l fuel).2.1 ∨
            (buildPhase1 d steps e l fuel).2.2.1 ≤ j) → j ≤ m →
          f j ∈ (buildPhase1 d steps e l fuel).1 j
  | 0, _, _, _, _, _, _, _, _, _, hin => ⟨rfl, hin⟩
  | fuel + 1, steps, e, l, f, m, hsym, hel, hlm, hedge, hin => by
    simp only [buildPhase1]
    by_cases hgap : e + 1 < l
    · rw [if_pos hgap]
      by_cases hcard : (steps e).card < (steps l).card
      · rw [if_pos hcard]
        have hmem : f (e + 1) ∈ dexpand (steps e) d.getEnd :=
          mem_dexpand.mpr ⟨f e, hin e (by omega) (by omega), hedge e (by omega)⟩
        rw [if_neg (Finset.ne_empty_of_mem hmem)]
        refine buildPhase1_complete d fuel _ (e + 1) l f m hsym (by omega) hlm hedge ?_
        intro j hj hjm
        by_cases hje : j = e + 1
        · subst hje
          rw [Function.update_same]
          exact hmem
        · rw [Function.update_noteq hje]
          exact hin j (by omega) hjm
      · rw [if_neg hcard]
        have hmem : f (l - 1) ∈ dexpand (steps l) d.getStart := by
          refine mem_dexpand.mpr ⟨f l, hin l (by omega) hlm, ?_⟩
          have := hedge (l - 1) (by omega)
          rw [show l - 1 + 1 = l by omega] at this
          exact (hsym (f (l - 1)) (f l)).mp this
        rw [if_neg (Finset.ne_empty_of_mem hmem)]
        refine buildPhase1_complete d fuel _ e (l - 1) f m hsym (by omega)
          (by omega) hedge ?_
        intro j hj hjm
        by_cases hje : j = l - 1
        · subst hje
          rw [Function.update_same]
          exact hmem
        · rw [Function.update_noteq hje]
          exact hin j (by omega) hjm
    · rw [if_neg hgap]
      exact ⟨rfl, hin⟩

/-! ## Soundness and completeness of the built step sets -/

/-- After a non-disconnected build: every vertex of step `j` has a successor
in step `j + 1` and a predecessor in step `j - 1`, every step set is
non-empty, step 0 is contained in the start set and step `n - 1` in the end
set. -/
theorem buildGPF_sound {s e : Finset V} {n : Nat} {d : DEdge V}
    (hn : 2 ≤ n) (hsym : d.Symm)
    (hdis : (buildGPF s e n d).isDisconnected = false) :
    (∀ j, j + 1 ≤ n - 1 → ∀ v ∈ (buildGPF s e n d).stepSets j,
        ∃ w ∈ (buildGPF s e n d).stepSets (j + 1), w ∈ d.getEnd v) ∧
    (∀ j, 1 ≤ j → j ≤ n - 1 → ∀ v ∈ (buildGPF s e n d).stepSets j,
        ∃ u ∈ (buildGPF s e n d).stepSets (j - 1), v ∈ d.getEnd u) ∧
    (∀ j, j ≤ n - 1 → ((buildGPF s e n d).stepSets j).Nonempty) ∧
    (buildGPF s e n d).stepSets 0 ⊆ s ∧
    (buildGPF s e n d).stepSets (n - 1) ⊆ e := by
  rcases hr1 : buildPhase1 d (initSteps s e n) 0 (n - 1) (n - 1)
    with ⟨st1, e1, l1, dis1⟩
  cases dis1 with
  | true =>
    have hg : buildGPF s e n d = ⟨st1, n, d, true⟩ := by
      unfold buildGPF; rw [hr1]
    rw [hg] at hdis
    exact absurd hdis (by simp)
  | false =>
    rcases hr2 : forwardFilter d st1 e1 (n - 1 - e1) with ⟨st2, dis2⟩
    cases dis2 with
    | true =>
      have hg : buildGPF s e n d = ⟨st2, n, d, true⟩ := by
        unfold buildGPF; rw [hr1]; dsimp only; rw [hr2]
      rw [hg] at hdis
      exact absurd hdis (by simp)
    | false =>
      rcases hr3 : backwardFilter d st2 l1 with ⟨st3, dis3⟩
      have hg : buildGPF s e n d = ⟨st3, n, d, dis3⟩ := by
        unfold buildGPF; rw [hr1]; dsimp only; rw [hr2]; dsimp only; rw [hr3]
      rw [hg] at hdis ⊢
      subst hdis
      dsimp only
      -- facts from phase 1
      have hexit := buildPhase1_exit d (n - 1) (initSteps s e n) 0 (n - 1)
        (by omega) (by omega) (by rw [hr1])
      rw [hr1] at hexit
      have hl1 : l1 ≤ n - 1 := hexit.2.1
      have hel : e1 + 1 = l1 := hexit.2.2
      have hE1 : ∀ j, 1 ≤ j → j ≤ e1 →
          st1 j = dexpand (st1 (j - 1)) d.getEnd := by
        have h := buildPhase1_E1 d (n - 1) (initSteps s e n) 0 (n - 1)
          (by omega) (fun j hj1 hj2 => absurd (hj1.trans hj2) (by omega))
          (by rw [hr1])
        rw [hr1] at h
        exact h
      have hE2 : ∀ j, l1 ≤ j → j ≤ n - 2 →
          st1 j = dexpand (st1 (j + 1)) d.getStart := by
        have h := buildPhase1_E2 d (n - 1) (initSteps s e n) 0 (n - 1) (n - 2)
          (by omega) (by omega)
          (fun j hj1 hj2 => absurd (hj1.trans hj2) (by omega))
          (by rw [hr1])
        rw [hr1] at h
        exact h
      have hframe1 : ∀ j, j ≤ 0 ∨ n - 1 ≤ j → st1 j = initSteps s e n j := by
        intro j hj
        have h := buildPhase1_frame d (n - 1) (initSteps s e n) 0 (n - 1) j
          (by omega) hj
        rw [hr1] at h
        exact h
      -- facts from phase 2
      have f2sub : ∀ j, st2 j ⊆ st1 j := by
        intro j
        have h := forwardFilter_subset d (n - 1 - e1) st1 e1 j
        rw [hr2] at h
        exact h
      have f2frame : ∀ j, j ≤ e1 → st2 j = st1 j := by
        intro j hj
        have h := forwardFilter_frame d (n - 1 - e1) st1 e1 j (Or.inl hj)
        rw [hr2] at h
        exact h
      have f2exact : ∀ j, e1 + 1 ≤ j → j ≤ n - 1 →
          st2 j = st1 j ∩ dexpand (st2 (j - 1)) d.getEnd := by
        intro j hj1 hj2
        have h := forwardFilter_exact d (n - 1 - e1) st1 e1 (by rw [hr2]) j hj1
          (by omega)
        rw [hr2] at h
        exact h
      have f2ne : ∀ j, e1 + 1 ≤ j → j ≤ n - 1 → st2 j ≠ ∅ := by
        intro j hj1 hj2
        have h := forwardFilter_ne d (n - 1 - e1) st1 e1 (by rw [hr2]) j hj1
          (by omega)
        rw [hr2] at h
        exact h
      -- facts from phase 3
      have b3frame : ∀ j, l1 ≤ j → st3 j = st2 j := by
        intro j hj
        have h := backwardFilter_frame d l1 st2 j hj
        rw [hr3] at h
        exact h
      have b3exact : ∀ j, j < l1 →
          st3 j = st2 j ∩ dexpand (st3 (j + 1)) d.getStart := by
        intro j hj
        have h := backwardFilter_exact d l1 st2 (by rw [hr3]) j hj
        rw [hr3] at h
        exact h
      have b3ne : ∀ j, j < l1 → st3 j ≠ ∅ := by
        intro j hj
        have h := backwardFilter_ne d l1 st2 (by rw [hr3]) j hj
        rw [hr3] at h
        exact h
      refine ⟨?_, ?_, ?_, ?_, ?_⟩
      · -- every vertex has a successor in the next step set
        intro j hj v hv
        by_cases hjl : j < l1
        · rw [b3exact j hjl] at hv
          obtain ⟨-, hvex⟩ := Finset.mem_inter.mp hv
          obtain ⟨w, hw, hvw⟩ := mem_dexpand.mp hvex
          exact ⟨w, hw, (hsym v w).mpr hvw⟩
        · push_neg at hjl
          rw [b3frame j hjl] at hv
          have hv1 : v ∈ st1 j := f2sub j hv
          rw [hE2 j (by omega) (by omega)] at hv1
          obtain ⟨w, hw1, hvw⟩ := mem_dexpand.mp hv1
          have hwe : w ∈ d.getEnd v := (hsym v w).mpr hvw
          have hw2 : w ∈ st2 (j + 1) := by
            rw [f2exact (j + 1) (by omega) (by omega)]
            refine Finset.mem_inter.mpr ⟨hw1, ?_⟩
            rw [show j + 1 - 1 = j from rfl]
            exact mem_dexpand.mpr ⟨v, hv, hwe⟩
          rw [b3frame (j + 1) (by omega)]
          exact ⟨w, hw2, hwe⟩
      · -- every vertex has a predecessor in the previous step set
        intro j hj1 hj2 v hv
        by_cases hjl : j ≤ e1
        · have hv' := hv
          rw [b3exact j (by omega)] at hv'
          obtain ⟨hv2, -⟩ := Finset.mem_inter.mp hv'
          have hv1 : v ∈ st1 j := by
            rw [← f2frame j hjl]
            exact hv2
          rw [hE1 j hj1 hjl] at hv1
          obtain ⟨u, hu1, hvu⟩ := mem_dexpand.mp hv1
          have hu3 : u ∈ st3 (j - 1) := by
            rw [b3exact (j - 1) (by omega)]
            refine Finset.mem_inter.mpr ⟨?_, ?_⟩
            · rw [f2frame (j - 1) (by omega)]
              exact hu1
            · rw [show j - 1 + 1 = j by omega]
              exact mem_dexpand.mpr ⟨v, hv, (hsym u v).mp hvu⟩
          exact ⟨u, hu3, hvu⟩
        · push_neg at hjl
          by_cases hje : j = l1
          · subst hje
            have hv2 : v ∈ st2 j := by
              rw [← b3frame j le_rfl]
              exact hv
            rw [f2exact j (by omega) hj2] at hv2
            obtain ⟨-, hvex⟩ := Finset.mem_inter.mp hv2
            obtain ⟨u, hu2, hvu⟩ := mem_dexpand.mp hvex
            have hu3 : u ∈ st3 (j - 1) := by
              rw [b3exact (j - 1) (by omega)]
              refine Finset.mem_inter.mpr ⟨hu2, ?_⟩
              rw [show j - 1 + 1 = j by omega]
              exact mem_dexpand.mpr ⟨v, hv, (hsym u v).mp hvu⟩
            exact ⟨u, hu3, hvu⟩
          · have hjl1 : l1 < j := by omega
            have hv2 : v ∈ st2 j := by
              rw [← b3frame j (by omega)]
              exact hv
            rw [f2exact j (by omega) hj2] at hv2
            obtain ⟨-, hvex⟩ := Finset.mem_inter.mp hv2
            obtain ⟨u, hu2, hvu⟩ := mem_dexpand.mp hvex
            rw [b3frame (j - 1) (by omega)]
            exact ⟨u, hu2, hvu⟩
      · -- non-emptiness
        intro j hj
        rw [Finset.nonempty_iff_ne_empty]
        by_cases hjl : j < l1
        · exact b3ne j hjl
        · push_neg at hjl
          rw [b3frame j hjl]
          exact f2ne j (by omega) hj
      · -- step 0 within the start set
        have h0 : st3 0 ⊆ st2 0 := by
          rw [b3exact 0 (by omega)]
          exact Finset.inter_subset_left
        have h1 : st2 0 = st1 0 := f2frame 0 (by omega)
        have h2 : st1 0 = initSteps s e n 0 := hframe1 0 (Or.inl le_rfl)
        rw [h1, h2] at h0
        unfold initSteps at h0
        rw [if_neg (by omega), if_pos rfl] at h0
        exact h0
      · -- step n - 1 within the end set
        have h0 : st3 (n - 1) = st2 (n - 1) := b3frame (n - 1) (by omega)
        have h1 : st2 (n - 1) ⊆ st1 (n - 1) := f2sub (n - 1)
        have h2 : st1 (n - 1) = initSteps s e n (n - 1) :=
          hframe1 (n - 1) (Or.inr le_rfl)
        rw [h0]
        refine h1.trans ?_
        rw [h2]
        unfold initSteps
        rw [if_pos rfl]

/-- Completeness of the build: the vertices of any valid path (given as a
function on positions) are never filtered out of the step sets, and their
existence prevents every disconnection check from firing. -/
theorem buildGPF_complete {s e : Finset V} {n : Nat} {d : DEdge V}
    (hn : 2 ≤ n) (hsym : d.Symm) (f : Nat → V)
    (hf0 : f 0 ∈ s) (hfN : f (n - 1) ∈ e)
    (hedge : ∀ j, j + 1 ≤ n - 1 → f (j + 1) ∈ d.getEnd (f j)) :
    (buildGPF s e n d).isDisconnected = false ∧
      ∀ j, j ≤ n - 1 → f j ∈ (buildGPF s e n d).stepSets j := by
  have hin0 : ∀ j, (j ≤ 0 ∨ n - 1 ≤ j) → j ≤ n - 1 → f j ∈ initSteps s e n j := by
    intro j hj hjm
    rcases hj with hj | hj
    · obtain rfl : j = 0 := by omega
      unfold initSteps
      rw [if_neg (by omega), if_pos rfl]
      exact hf0
    · obtain rfl : j = n - 1 := by omega
      unfold initSteps
      rw [if_pos rfl]
      exact hfN
  rcases hr1 : buildPhase1 d (initSteps s e n) 0 (n - 1) (n - 1)
    with ⟨st1, e1, l1, dis1⟩
  have p1c := buildPhase1_complete d (n - 1) (initSteps s e n) 0 (n - 1) f (n - 1)
    hsym (by omega) le_rfl hedge hin0
  rw [hr1] at p1c
  have hd1 : dis1 = false := p1c.1
  subst hd1
  have hexit := buildPhase1_exit d (n - 1) (initSteps s e n) 0 (n - 1)
    (by omega) (by omega) (by rw [hr1])
  rw [hr1] at hexit
  have hel : e1 + 1 = l1 := hexit.2.2
  have hl1 : l1 ≤ n - 1 := hexit.2.1
  have hmem1 : ∀ j, j ≤ n - 1 → f j ∈ st1 j := by
    intro j hj
    exact p1c.2 j (by omega) hj
  have p2c := forwardFilter_complete d (n - 1 - e1) st1 e1 f
    (fun j hj => hedge j (by omega)) (fun j hj => hmem1 j (by omega))
  rcases hr2 : forwardFilter d st1 e1 (n - 1 - e1) with ⟨st2, dis2⟩
  rw [hr2] at p2c
  have hd2 : dis2 = false := p2c.1
  subst hd2
  have hmem2 : ∀ j, j ≤ n - 1 → f j ∈ st2 j := by
    intro j hj
    exact p2c.2 j (by omega)
  have p3c := backwardFilter_complete d l1 st2 f (n - 1) hsym hl1 hedge hmem2
  rcases hr3 : backwardFilter d st2 l1 with ⟨st3, dis3⟩
  rw [hr3] at p3c
  have hd3 : dis3 = false := p3c.1
  subst hd3
  have hg : buildGPF s e n d = ⟨st3, n, d, false⟩ := by
    unfold buildGPF; rw [hr1]; dsimp only; rw [hr2]; dsimp only; rw [hr3]
  rw [hg]
  exact ⟨rfl, fun j hj => p3c.2 j hj⟩

/-! ## Characterisation of the enumerated paths -/

/-- `StepSuffix d steps i k v q`: `q` is a path fragment produced by the DFS
from vertex `v` at step `i` with `k` steps remaining — it starts with `v` and
each later vertex lies in `get_end_vertices` of its predecessor intersected
with its step set. -/
def StepSuffix (d : DEdge V) (steps : Nat → Finset V) : Nat → Nat → V → List V → Prop
  | _, 0, v, q => q = [v]
  | i, k + 1, v, q =>
    ∃ w ∈ d.getEnd v ∩ steps (i + 1), ∃ q',
      q = v :: q' ∧ StepSuffix d steps (i + 1) k w q'

/-- `StepInit d steps i v q`: `q` is a path fragment for steps `0 .. i`
ending in `v`, with each vertex lying in its step set (except possibly `v`,
whose membership is tracked separately) and each consecutive pair
connected. -/
def StepInit (d : DEdge V) (steps : Nat → Finset V) : Nat → V → List V → Prop
  | 0, v, q => q = [v]
  | i + 1, v, q =>
    ∃ u ∈ steps i, v ∈ d.getEnd u ∧ ∃ q',
      q = q' ++ [v] ∧ StepInit d steps i u q'

theorem mem_pathsFrom [LinearOrder V] (d : DEdge V) (steps : Nat → Finset V) :
    ∀ (k i : Nat) (v : V) (q : List V),
      q ∈ pathsFrom d steps v i k ↔ StepSuffix d steps i k v q
  | 0, i, v, q => by
    simp only [pathsFrom, StepSuffix, List.mem_singleton]
  | k + 1, i, v, q => by
    simp only [pathsFrom, StepSuffix, List.mem_flatMap, List.mem_map, mem_enumList]
    constructor
    · rintro ⟨w, hw, q', hq', rfl⟩
      exact ⟨w, hw, q', rfl, (mem_pathsFrom d steps k (i + 1) w q').mp hq'⟩
    · rintro ⟨w, hw, q', rfl, hss⟩
      exact ⟨w, hw, q', (mem_pathsFrom d steps k (i + 1) w q').mpr hss, rfl⟩

theorem stepSuffix_cons {d : DEdge V} {steps : Nat → Finset V} :
    ∀ {i k : Nat} {v : V} {q : List V}, StepSuffix d steps i k v q →
      q = v :: q.tail := by
  intro i k v q h
  cases k with
  | zero => rw [h]; rfl
  | succ k =>
    obtain ⟨w, -, q', rfl, -⟩ := h
    rfl

theorem stepSuffix_head {d : DEdge V} {steps : Nat → Finset V}
    {i k : Nat} {v : V} {q : List V} (h : StepSuffix d steps i k v q) :
    q.head? = some v := by
  rw [stepSuffix_cons h]
  rfl

theorem stepSuffix_length {d : DEdge V} {steps : Nat → Finset V} :
    ∀ (k i : Nat) (v : V) (q : List V), StepSuffix d steps i k v q →
      q.length = k + 1
  | 0, _, _, _, h => by rw [h]; rfl
  | k + 1, i, v, q, h => by
    obtain ⟨w, -, q', rfl, hss⟩ := h
    simp [stepSuffix_length k (i + 1) w q' hss]

theorem stepSuffix_getLast {d : DEdge V} {steps : Nat → Finset V} :
    ∀ (k i : Nat) (v : V) (q : List V), StepSuffix d steps i k v q →
      v ∈ steps i → ∀ w, q.getLast? = some w → w ∈ steps (i + k)
  | 0, i, v, q, h, hv, w, hw => by
    rw [h] at hw
    simp only [List.getLast?_singleton, Option.some.injEq] at hw
    subst hw
    exact hv
  | k + 1, i, v, q, h, hv, w, hw => by
    obtain ⟨w', hw', q', rfl, hss⟩ := h
    cases q' with
    | nil =>
      have hlen := stepSuffix_length k (i + 1) w' [] hss
      simp at hlen
    | cons a t =>
      obtain rfl : a = w' := by
        have h2 := stepSuffix_head hss
        simpa using h2
      rw [show ((v :: a :: t).getLast? : Option V) = (a :: t).getLast? from rfl] at hw
      have := stepSuffix_getLast k (i + 1) a _ hss (Finset.mem_inter.mp hw').2 w hw
      rwa [show i + 1 + k = i + (k + 1) by omega] at this

theorem stepSuffix_chain {d : DEdge V} {steps : Nat → Finset V} :
    ∀ (k i : Nat) (v : V) (q : List V), StepSuffix d steps i k v q →
      List.Chain' (fun x y => y ∈ d.getEnd x) q
  | 0, _, _, _, h => by rw [h]; exact List.chain'_singleton _
  | k + 1, i, v, q, h => by
    obtain ⟨w, hw, q', rfl, hss⟩ := h
    cases q' with
    | nil =>
      have hlen := stepSuffix_length k (i + 1) w [] hss
      simp at hlen
    | cons a t =>
      obtain rfl : a = w := by
        have h2 := stepSuffix_head hss
        simpa using h2
      exact List.chain'_cons.mpr ⟨(Finset.mem_inter.mp hw).1,
        stepSuffix_chain k (i + 1) a _ hss⟩

theorem stepSuffix_mem {d : DEdge V} {steps : Nat → Finset V} :
    ∀ (k i : Nat) (v : V) (q : List V), StepSuffix d steps i k v q →
      v ∈ steps i → ∀ m w, q[m]? = some w → w ∈ steps (i + m)
  | 0, i, v, q, h, hv, m, w, hw => by
    subst h
    cases m with
    | zero =>
      simp only [List.getElem?_cons_zero, Option.some.injEq] at hw
      rwa [← hw]
    | succ m => simp at hw
  | k + 1, i, v, q, h, hv, m, w, hw => by
    obtain ⟨w', hw', q', rfl, hss⟩ := h
    cases m with
    | zero =>
      simp only [List.getElem?_cons_zero, Option.some.injEq] at hw
      rwa [← hw]
    | succ m =>
      rw [List.getElem?_cons_succ] at hw
      have := stepSuffix_mem k (i + 1) w' q' hss (Finset.mem_inter.mp hw').2 m w hw
      rwa [show i + 1 + m = i + (m + 1) by omega] at this

theorem stepSuffix_of_list {d : DEdge V} {steps : Nat → Finset V} :
    ∀ (q : List V) (i k : Nat) (v : V), q.length = k + 1 → q.head? = some v →
      List.Chain' (fun x y => y ∈ d.getEnd x) q →
      (∀ m w, q[m]? = some w → w ∈ steps (i + m)) →
      StepSuffix d steps i k v q
  | [], _, _, _, hlen, _, _, _ => by simp at hlen
  | [x], i, k, v, hlen, hhead, _, _ => by
    obtain rfl : k = 0 := by simpa using hlen.symm
    obtain rfl : v = x := by simpa using hhead.symm
    rfl
  | x :: y :: rest, i, k, v, hlen, hhead, hchain, hmem => by
    obtain rfl : v = x := by simpa using hhead.symm
    obtain rfl : k = rest.length + 1 := by
      simp only [List.length_cons] at hlen
      omega
    refine ⟨y, Finset.mem_inter.mpr ⟨(List.chain'_cons.mp hchain).1, ?_⟩,
      y :: rest, rfl, ?_⟩
    · exact hmem 1 y (by simp)
    · refine stepSuffix_of_list (y :: rest) (i + 1) rest.length y rfl rfl
        (List.chain'_cons.mp hchain).2 ?_
      intro m w hw
      have := hmem (m + 1) w (by rwa [List.getElem?_cons_succ])
      rwa [show i + (m + 1) = i + 1 + m by omega] at this

theorem pathsFrom_head [LinearOrder V] {d : DEdge V} {steps : Nat → Finset V}
    {k i : Nat} {v : V} {q : List V} (h : q ∈ pathsFrom d steps v i k) :
    q.head? = some v := by
  have := stepSuffix_cons ((mem_pathsFrom d steps k i v q).mp h)
  rw [this]
  rfl

theorem pathsFrom_nodup [LinearOrder V] (d : DEdge V) (steps : Nat → Finset V) :
    ∀ (k i : Nat) (v : V), (pathsFrom d steps v i k).Nodup
  | 0, _, _ => by simp [pathsFrom]
  | k + 1, i, v => by
    rw [pathsFrom, List.nodup_flatMap]
    constructor
    · intro w _
      exact (pathsFrom_nodup d steps k (i + 1) w).map
        (fun _ _ h => (List.cons.injEq _ _ _ _).mp h |>.2)
    · refine List.Pairwise.imp ?_ (enumList_nodup _)
      intro w1 w2 hne q hq1 hq2
      simp only [Function.onFun, List.mem_map] at hq1 hq2
      obtain ⟨q1, hq1', rfl⟩ := hq1
      obtain ⟨q2, hq2', heq⟩ := hq2
      obtain ⟨-, rfl⟩ := (List.cons.injEq _ _ _ _).mp heq.symm
      have h1 := pathsFrom_head hq1'
      have h2 := pathsFrom_head hq2'
      rw [h1] at h2
      exact hne (Option.some.inj h2)

theorem getAllPathsList_nodup [LinearOrder V] (g : GraphPathFinder V) :
    (getAllPathsList g).Nodup := by
  rw [getAllPathsList, List.nodup_flatMap]
  constructor
  · intro v _
    exact pathsFrom_nodup _ _ _ _ _
  · refine List.Pairwise.imp ?_ (enumList_nodup _)
    intro v1 v2 hne q hq1 hq2
    have h1 := pathsFrom_head hq1
    have h2 := pathsFrom_head hq2
    rw [h1] at h2
    exact hne (Option.some.inj h2)

theorem mem_getAllPathsList [LinearOrder V] {g : GraphPathFinder V} {q : List V} :
    q ∈ getAllPathsList g ↔
      ∃ v ∈ g.stepSets 0,
        StepSuffix g.dedge g.stepSets 0 (g.numVertices - 1) v q := by
  rw [getAllPathsList]
  simp only [List.mem_flatMap, mem_enumList]
  constructor
  · rintro ⟨v, hv, hq⟩
    exact ⟨v, hv, (mem_pathsFrom _ _ _ _ _ _).mp hq⟩
  · rintro ⟨v, hv, hq⟩
    exact ⟨v, hv, (mem_pathsFrom _ _ _ _ _ _).mpr hq⟩

/-! ## Extending vertices to full paths -/

theorem stepInit_length {d : DEdge V} {st : Nat → Finset V} :
    ∀ (i : Nat) (v : V) (q : List V), StepInit d st i v q → q.length = i + 1
  | 0, v, q, h => by rw [h]; rfl
  | i + 1, v, q, h => by
    obtain ⟨u, -, -, q', rfl, h'⟩ := h
    simp [stepInit_length i u q' h']

theorem stepInit_getLast {d : DEdge V} {st : Nat → Finset V} :
    ∀ (i : Nat) (v : V) (q : List V), StepInit d st i v q →
      q.getLast? = some v
  | 0, v, q, h => by rw [h]; rfl
  | i + 1, v, q, h => by
    obtain ⟨u, -, -, q', rfl, h'⟩ := h
    exact List.getLast?_concat q'

theorem ex_stepSuffix {d : DEdge V} {st : Nat → Finset V} {n : Nat}
    (S1 : ∀ j, j + 1 ≤ n - 1 → ∀ v ∈ st j, ∃ w ∈ st (j + 1), w ∈ d.getEnd v) :
    ∀ (k i : Nat) (v : V), i + k ≤ n - 1 → v ∈ st i →
      ∃ q, StepSuffix d st i k v q
  | 0, i, v, _, _ => ⟨[v], rfl⟩
  | k + 1, i, v, hik, hv => by
    obtain ⟨w, hw, hvw⟩ := S1 i (by omega) v hv
    obtain ⟨q', hq'⟩ := ex_stepSuffix S1 k (i + 1) w (by omega) hw
    exact ⟨v :: q', w, Finset.mem_inter.mpr ⟨hvw, hw⟩, q', rfl, hq'⟩

theorem ex_stepInit {d : DEdge V} {st : Nat → Finset V} {n : Nat}
    (S2 : ∀ j, 1 ≤ j → j ≤ n - 1 → ∀ v ∈ st j, ∃ u ∈ st (j - 1), v ∈ d.getEnd u) :
    ∀ (i : Nat) (v : V), i ≤ n - 1 → v ∈ st i → ∃ q, StepInit d st i v q
  | 0, v, _, _ => ⟨[v], rfl⟩
  | i + 1, v, hi, hv => by
    obtain ⟨u, hu, hvu⟩ := S2 (i + 1) (by omega) hi v hv
    obtain ⟨q', hq'⟩ := ex_stepInit S2 i u (by omega) hu
    exact ⟨q' ++ [v], u, hu, hvu, q', rfl, hq'⟩

theorem stepInit_glue {d : DEdge V} {st : Nat → Finset V} :
    ∀ (i : Nat) (v : V) (q₁ q₂ : List V) (k : Nat),
      StepInit d st i v q₁ → v ∈ st i → StepSuffix d st i k v q₂ →
      ∃ w ∈ st 0, StepSuffix d st 0 (i + k) w (q₁ ++ q₂.tail)
  | 0, v, q₁, q₂, k, hpre, hv, hsuf => by
    obtain rfl : q₁ = [v] := hpre
    refine ⟨v, hv, ?_⟩
    rw [show ([v] ++ q₂.tail : List V) = v :: q₂.tail from rfl,
      ← stepSuffix_cons hsuf, show (0 + k : Nat) = k by omega]
    exact hsuf
  | i + 1, v, q₁, q₂, k, hpre, hv, hsuf => by
    obtain ⟨u, hu, hvu, q', rfl, hpre'⟩ := hpre
    have hsuf' : StepSuffix d st i (k + 1) u (u :: q₂) :=
      ⟨v, Finset.mem_inter.mpr ⟨hvu, hv⟩, q₂, rfl, hsuf⟩
    obtain ⟨w, hw, hglue⟩ := stepInit_glue i u q' (u :: q₂) (k + 1) hpre' hu hsuf'
    refine ⟨w, hw, ?_⟩
    rw [show (q' ++ [v]) ++ q₂.tail = q' ++ (v :: q₂.tail) by simp,
      ← stepSuffix_cons hsuf, show (i + 1 + k : Nat) = i + (k + 1) by omega]
    exact hglue

/-! ## The random path walk -/

theorem fillDown_spec {d : DEdge V} {st : Nat → Finset V} {n : Nat}
    (hsymL : ∀ j, j + 1 ≤ n - 1 → ∀ u ∈ st j, ∀ v ∈ st (j + 1),
      (v ∈ d.getEnd u ↔ u ∈ d.getStart v))
    (S2 : ∀ j, 1 ≤ j → j ≤ n - 1 → ∀ v ∈ st j, ∃ u ∈ st (j - 1), v ∈ d.getEnd u)
    {pick : Finset V → V} (hpick : ∀ t : Finset V, t.Nonempty → pick t ∈ t) :
    ∀ (i : Nat) (v : V), i ≤ n - 1 → v ∈ st i →
      ∃ q, fillDown d st pick v i = some q ∧ StepInit d st i v q
  | 0, v, _, _ => ⟨[v], rfl, rfl⟩
  | i + 1, v, hi, hv => by
    obtain ⟨u₀, hu₀, hvu₀⟩ := S2 (i + 1) (by omega) hi v hv
    have hc : (d.getStart v ∩ st i).Nonempty :=
      ⟨u₀, Finset.mem_inter.mpr ⟨(hsymL i hi u₀ hu₀ v hv).mp hvu₀, hu₀⟩⟩
    have hcne : ¬(d.getStart v ∩ st i = ∅) := Finset.nonempty_iff_ne_empty.mp hc
    obtain ⟨hus, hust⟩ := Finset.mem_inter.mp (hpick _ hc)
    obtain ⟨q', hq'eq, hq'⟩ := fillDown_spec hsymL S2 hpick i
      (pick (d.getStart v ∩ st i)) (by omega) hust
    refine ⟨q' ++ [v], ?_, pick (d.getStart v ∩ st i), hust,
      (hsymL i hi _ hust v hv).mpr hus, q', rfl, hq'⟩
    simp only [fillDown, if_neg hcne, hq'eq, Option.map_some']

theorem fillUp_spec {d : DEdge V} {st : Nat → Finset V} {n : Nat}
    (S1 : ∀ j, j + 1 ≤ n - 1 → ∀ v ∈ st j, ∃ w ∈ st (j + 1), w ∈ d.getEnd v)
    {pick : Finset V → V} (hpick : ∀ t : Finset V, t.Nonempty → pick t ∈ t) :
    ∀ (k i : Nat) (v : V), i + k ≤ n - 1 → v ∈ st i →
      ∃ q, fillUp d st pick v i k = some q ∧ StepSuffix d st i k v q
  | 0, _, v, _, _ => ⟨[v], rfl, rfl⟩
  | k + 1, i, v, hik, hv => by
    obtain ⟨w₀, hw₀, hvw₀⟩ := S1 i (by omega) v hv
    have hc : (d.getEnd v ∩ st (i + 1)).Nonempty :=
      ⟨w₀, Finset.mem_inter.mpr ⟨hvw₀, hw₀⟩⟩
    have hcne : ¬(d.getEnd v ∩ st (i + 1) = ∅) := Finset.nonempty_iff_ne_empty.mp hc
    have hwmem := hpick _ hc
    obtain ⟨q', hq'eq, hq'⟩ := fillUp_spec S1 hpick k (i + 1)
      (pick (d.getEnd v ∩ st (i + 1))) (by omega)
      (Finset.mem_inter.mp hwmem).2
    refine ⟨v :: q', ?_, pick (d.getEnd v ∩ st (i + 1)), hwmem, q', rfl, hq'⟩
    simp only [fillUp, if_neg hcne, hq'eq, Option.map_some']

/-! ## Assembly: the constructed GraphPathFinder -/

theorem buildGPF_numVertices (s e : Finset V) (n : Nat) (d : DEdge V) :
    (buildGPF s e n d).numVertices = n := by
  unfold buildGPF
  split
  · rfl
  · split
    · rfl
    · split
      rfl

theorem buildGPF_dedge (s e : Finset V) (n : Nat) (d : DEdge V) :
    (buildGPF s e n d).dedge = d := by
  unfold buildGPF
  split
  · rfl
  · split
    · rfl
    · split
      rfl

/-- Successful construction: non-empty start and end sets and at least two
vertices make `GraphPathFinder.__init__` return the built object. -/
theorem mkGPF_ok {s e : Finset V} {N : Int} {d : DEdge V}
    (hs : s.Nonempty) (he : e.Nonempty) (hN : 2 ≤ N) :
    mkGraphPathFinder s e N d = .ok (buildGPF s e N.toNat d) := by
  unfold mkGraphPathFinder
  rw [if_neg (by have := Finset.card_pos.mpr hs; omega),
    if_neg (by have := Finset.card_pos.mpr he; omega),
    if_neg (by omega)]

theorem chain'_getElem? {R : V → V → Prop} :
    ∀ (l : List V) (j : Nat) (x y : V), List.Chain' R l →
      l[j]? = some x → l[j + 1]? = some y → R x y
  | [], j, x, y, _, hx, _ => by simp at hx
  | [a], j, x, y, _, hx, hy => by
    cases j with
    | zero => simp at hy
    | succ j => simp at hx
  | a :: b :: rest, j, x, y, hc, hx, hy => by
    cases j with
    | zero =>
      simp only [List.getElem?_cons_zero, Option.some.injEq] at hx
      rw [List.getElem?_cons_succ, List.getElem?_cons_zero] at hy
      obtain rfl := hx
      obtain rfl := Option.some.inj hy
      exact (List.chain'_cons.mp hc).1
    | succ j =>
      rw [List.getElem?_cons_succ] at hx hy
      exact chain'_getElem? (b :: rest) j x y (List.chain'_cons.mp hc).2 hx hy

/-- Every path yielded by the enumeration of a non-disconnected
`GraphPathFinder` is a valid path of the original inputs. -/
theorem mem_allPaths_valid [LinearOrder V] {s e : Finset V} {n : Nat} {d : DEdge V}
    (hn : 2 ≤ n) (hsym : d.Symm)
    (hdis : (buildGPF s e n d).isDisconnected = false)
    {q : List V} (hq : q ∈ getAllPathsList (buildGPF s e n d)) :
    IsValidPath s e d n q := by
  obtain ⟨S1, S2, S3, hsub0, hsubN⟩ := buildGPF_sound hn hsym hdis
  obtain ⟨v, hv, hss⟩ := mem_getAllPathsList.mp hq
  rw [buildGPF_dedge, buildGPF_numVertices] at hss
  obtain ⟨t, rfl⟩ : ∃ t, q = v :: t := ⟨q.tail, stepSuffix_cons hss⟩
  refine ⟨?_, hsub0 hv, ?_, stepSuffix_chain _ _ _ _ hss⟩
  · have := stepSuffix_length (n - 1) 0 v _ hss
    omega
  · have hl := List.getLast?_eq_getLast (v :: t) (List.cons_ne_nil v t)
    have := stepSuffix_getLast (n - 1) 0 v _ hss hv _ hl
    rw [show (0 + (n - 1) : Nat) = n - 1 by omega] at this
    exact hsubN this

/-- Every valid path survives the build (which therefore does not report
disconnection) and is yielded by the enumeration. -/
theorem valid_mem_allPaths [LinearOrder V] {s e : Finset V} {n : Nat} {d : DEdge V}
    (hn : 2 ≤ n) (hsym : d.Symm) {q : List V} (hq : IsValidPath s e d n q) :
    (buildGPF s e n d).isDisconnected = false ∧
      q ∈ getAllPathsList (buildGPF s e n d) := by
  cases q with
  | nil => exact hq.elim
  | cons a t =>
    obtain ⟨hlen, hhead, hlast, hchain⟩ := hq
    have hget : ∀ m, m < n →
        ∃ w, (a :: t)[m]? = some w ∧ (a :: t).getD m a = w := by
      intro m hm
      have hm' : m < (a :: t).length := by omega
      exact ⟨(a :: t)[m], List.getElem?_eq_getElem hm', by
        simp [List.getD_eq_getElem?_getD, List.getElem?_eq_getElem hm']⟩
    have hf0 : (a :: t).getD 0 a = a := rfl
    have hedge : ∀ j, j + 1 ≤ n - 1 →
        (a :: t).getD (j + 1) a ∈ d.getEnd ((a :: t).getD j a) := by
      intro j hj
      obtain ⟨x, hx, hfx⟩ := hget j (by omega)
      obtain ⟨y, hy, hfy⟩ := hget (j + 1) (by omega)
      rw [hfx, hfy]
      exact chain'_getElem? _ j x y hchain hx hy
    have hfN : (a :: t).getD (n - 1) a ∈ e := by
      have hl := List.getLast?_eq_getLast (a :: t) (List.cons_ne_nil a t)
      rw [List.getLast?_eq_getElem?] at hl
      obtain ⟨w, hw, hfw⟩ := hget (n - 1) (by omega)
      rw [show ((a :: t).length - 1 : Nat) = n - 1 by omega, hw] at hl
      rw [hfw, Option.some.inj hl]
      exact hlast
    have hc := buildGPF_complete hn hsym (fun j => (a :: t).getD j a)
      hhead hfN hedge
    refine ⟨hc.1, ?_⟩
    rw [mem_getAllPathsList, buildGPF_numVertices, buildGPF_dedge]
    refine ⟨a, ?_, ?_⟩
    · have h2 : (a :: t).getD 0 a ∈ (buildGPF s e n d).stepSets 0 :=
        hc.2 0 (by omega)
      rwa [hf0] at h2
    · refine stepSuffix_of_list (a :: t) 0 (n - 1) a (by omega) rfl hchain ?_
      intro m w hw
      obtain ⟨hmlt, -⟩ := List.getElem?_eq_some.mp hw
      have hmn : m < n := by
        have : (a :: t).length = n := hlen
        omega
      obtain ⟨w', hw', hfw'⟩ := hget m hmn
      rw [hw] at hw'
      have h2 : (a :: t).getD m a ∈ (buildGPF s e n d).stepSets m :=
        hc.2 m (by omega)
      rw [hfw', Option.some.inj hw'.symm] at h2
      rw [show (0 + m : Nat) = m by omega]
      exact h2

/-- The random walk of `get_random_path` always completes and yields a path
of the enumeration, for every seed step and every sound chooser. -/
theorem getRandomPath_spec [LinearOrder V] {g : GraphPathFinder V}
    (hdis : g.isDisconnected = false)
    (S1 : ∀ j, j + 1 ≤ g.numVertices - 1 → ∀ v ∈ g.stepSets j,
      ∃ w ∈ g.stepSets (j + 1), w ∈ g.dedge.getEnd v)
    (S2 : ∀ j, 1 ≤ j → j ≤ g.numVertices - 1 → ∀ v ∈ g.stepSets j,
      ∃ u ∈ g.stepSets (j - 1), v ∈ g.dedge.getEnd u)
    (S3 : ∀ j, j ≤ g.numVertices - 1 → (g.stepSets j).Nonempty)
    (hsymL : ∀ j, j + 1 ≤ g.numVertices - 1 → ∀ u ∈ g.stepSets j,
      ∀ v ∈ g.stepSets (j + 1),
      (v ∈ g.dedge.getEnd u ↔ u ∈ g.dedge.getStart v))
    {k : Nat} (hk : k ≤ g.numVertices - 1)
    {pick : Finset V → V} (hpick : ∀ t : Finset V, t.Nonempty → pick t ∈ t) :
    ∃ p, getRandomPath g k pick = .ok p ∧ p ∈ getAllPathsList g := by
  have hne := S3 k hk
  have hnemp : ¬(g.stepSets k = ∅) := Finset.nonempty_iff_ne_empty.mp hne
  have hseed : pick (g.stepSets k) ∈ g.stepSets k := hpick _ hne
  obtain ⟨down, hdeq, hdpre⟩ := fillDown_spec hsymL S2 hpick k _ hk hseed
  obtain ⟨up, hueq, husuf⟩ := fillUp_spec S1 hpick (g.numVertices - 1 - k) k _
    (by omega) hseed
  refine ⟨down ++ up.tail, ?_, ?_⟩
  · simp only [getRandomPath, hdis, Bool.false_eq_true, if_false, if_neg hnemp,
      hdeq, hueq]
  · obtain ⟨w, hw, hglue⟩ := stepInit_glue k _ down up _ hdpre hseed husuf
    rw [mem_getAllPathsList]
    refine ⟨w, hw, ?_⟩
    rwa [show (k + (g.numVertices - 1 - k) : Nat) = g.numVertices - 1 by omega]
      at hglue

/-! ## Graph-level claims -/

/-- C1: for every successfully constructed GraphPathFinder (non-empty start
and end sets, at least 2 vertices, an edge getter satisfying its documented
both-directions contract), `is_disconnected()` is false iff a valid path
exists; when false, `get_all_paths()` yields at least one path; when true,
both `get_all_paths()` and `get_random_path()` fail with the disconnected
error. -/
theorem claim_C1 [LinearOrder V] {s e : Finset V} {N : Int} {d : DEdge V}
    (hs : s.Nonempty) (he : e.Nonempty) (hN : 2 ≤ N) (hsym : d.Symm) :
    ∃ g, mkGraphPathFinder s e N d = .ok g ∧
      (g.isDisconnected = false ↔ ∃ q, IsValidPath s e d N.toNat q) ∧
      (g.isDisconnected = false → ∃ L, getAllPaths g = .ok L ∧ L ≠ []) ∧
      (g.isDisconnected = true →
        getAllPaths g = .error "Start and end vertices are disconnected." ∧
        ∀ (k : Nat) (pick : Finset V → V),
          getRandomPath g k pick =
            .error "Start and end vertices are disconnected.") := by
  have hn : 2 ≤ N.toNat := by omega
  have hnonempty : ∀ hdis : (buildGPF s e N.toNat d).isDisconnected = false,
      ∃ q, q ∈ getAllPathsList (buildGPF s e N.toNat d) := by
    intro hdis
    obtain ⟨S1, S2, S3, -, -⟩ := buildGPF_sound hn hsym hdis
    obtain ⟨v, hv⟩ := S3 0 (by omega)
    obtain ⟨q, hq⟩ := ex_stepSuffix S1 (N.toNat - 1) 0 v (by omega) hv
    refine ⟨q, ?_⟩
    rw [mem_getAllPathsList, buildGPF_numVertices, buildGPF_dedge]
    exact ⟨v, hv, hq⟩
  refine ⟨buildGPF s e N.toNat d, mkGPF_ok hs he hN, ?_, ?_, ?_⟩
  · constructor
    · intro hdis
      obtain ⟨q, hq⟩ := hnonempty hdis
      exact ⟨q, mem_allPaths_valid hn hsym hdis hq⟩
    · rintro ⟨q, hq⟩
      exact (valid_mem_allPaths hn hsym hq).1
  · intro hdis
    obtain ⟨q, hq⟩ := hnonempty hdis
    refine ⟨getAllPathsList (buildGPF s e N.toNat d), ?_, List.ne_nil_of_mem hq⟩
    simp only [getAllPaths, hdis, Bool.false_eq_true, if_false]
  · intro hdis
    refine ⟨?_, fun k pick => ?_⟩
    · simp only [getAllPaths, hdis, if_true]
    · simp only [getRandomPath, hdis, if_true]

/-- C2: in a non-disconnected GraphPathFinder, every vertex of step set `i`
has at least one successor in step set `i + 1` and at least one predecessor
in step set `i - 1`. -/
theorem claim_C2 {s e : Finset V} {N : Int} {d : DEdge V}
    (hs : s.Nonempty) (he : e.Nonempty) (hN : 2 ≤ N) (hsym : d.Symm) :
    ∃ g, mkGraphPathFinder s e N d = .ok g ∧
      (g.isDisconnected = false →
        (∀ i, i + 1 ≤ N.toNat - 1 → ∀ v ∈ g.stepSets i,
          ∃ w ∈ g.stepSets (i + 1), w ∈ d.getEnd v) ∧
        (∀ i, 1 ≤ i → i ≤ N.toNat - 1 → ∀ v ∈ g.stepSets i,
          ∃ u ∈ g.stepSets (i - 1), u ∈ d.getStart v)) := by
  have hn : 2 ≤ N.toNat := by omega
  refine ⟨_, mkGPF_ok hs he hN, ?_⟩
  intro hdis
  obtain ⟨S1, S2, -, -, -⟩ := buildGPF_sound hn hsym hdis
  refine ⟨S1, ?_⟩
  intro i hi1 hi2 v hv
  obtain ⟨u, hu, hvu⟩ := S2 i hi1 hi2 v hv
  exact ⟨u, hu, (hsym u v).mp hvu⟩

/-- The self-loop example graph of the spec's test battery: vertices 1, 2, 3
of `Fin 4` with edges 1→2, 2→2, 2→3, 3→3, 3→2, as a directed edge getter
listing every edge in both directions. -/
def exampleDEdge : DEdge (Fin 4) where
  getEnd := fun v =>
    if v = 1 then {2} else if v = 2 then {2, 3} else if v = 3 then {3, 2} else ∅
  getStart := fun v =>
    if v = 2 then {1, 2, 3} else if v = 3 then {2, 3} else ∅

/-- Witness for C1 on the self-loop example graph. -/
theorem claim_C1_witness :
    (({1} : Finset (Fin 4)).Nonempty ∧ ({3} : Finset (Fin 4)).Nonempty ∧
      (2 : Int) ≤ 5 ∧ exampleDEdge.Symm) ∧
    ∃ g, mkGraphPathFinder ({1} : Finset (Fin 4)) {3} 5 exampleDEdge = .ok g ∧
      (g.isDisconnected = false ↔
        ∃ q, IsValidPath {1} {3} exampleDEdge (Int.toNat 5) q) ∧
      (g.isDisconnected = false → ∃ L, getAllPaths g = .ok L ∧ L ≠ []) ∧
      (g.isDisconnected = true →
        getAllPaths g = .error "Start and end vertices are disconnected." ∧
        ∀ (k : Nat) (pick : Finset (Fin 4) → Fin 4),
          getRandomPath g k pick =
            .error "Start and end vertices are disconnected.") :=
  ⟨⟨by decide, by decide, by decide, by decide⟩,
    claim_C1 (by decide) (by decide) (by decide) (by decide)⟩

/-- Witness for C2 on the self-loop example graph. -/
theorem claim_C2_witness :
    (({1} : Finset (Fin 4)).Nonempty ∧ ({3} : Finset (Fin 4)).Nonempty ∧
      (2 : Int) ≤ 5 ∧ exampleDEdge.Symm) ∧
    ∃ g, mkGraphPathFinder ({1} : Finset (Fin 4)) {3} 5 exampleDEdge = .ok g ∧
      (g.isDisconnected = false →
        (∀ i, i + 1 ≤ Int.toNat 5 - 1 → ∀ v ∈ g.stepSets i,
          ∃ w ∈ g.stepSets (i + 1), w ∈ exampleDEdge.getEnd v) ∧
        (∀ i, 1 ≤ i → i ≤ Int.toNat 5 - 1 → ∀ v ∈ g.stepSets i,
          ∃ u ∈ g.stepSets (i - 1), u ∈ exampleDEdge.getStart v)) :=
  ⟨⟨by decide, by decide, by decide, by decide⟩,
    claim_C2 (by decide) (by decide) (by decide) (by decide)⟩

/-- C3: on a non-disconnected GraphPathFinder, `get_all_paths()` enumerates
exactly the valid paths — each yielded tuple has `N` vertices, starts in step
set 0, ends in step set `N - 1` and is chained through `get_end_vertices` —
and every valid tuple is yielded exactly once (the enumeration holds no
duplicates). -/
theorem claim_C3 [LinearOrder V] {s e : Finset V} {N : Int} {d : DEdge V}
    (hs : s.Nonempty) (he : e.Nonempty) (hN : 2 ≤ N) (hsym : d.Symm) :
    ∃ g, mkGraphPathFinder s e N d = .ok g ∧
      ∀ L, getAllPaths g = .ok L →
        (∀ q, q ∈ L ↔ IsValidPath s e d N.toNat q) ∧ L.Nodup ∧
        (∀ q ∈ L, ∀ a, q.head? = some a → a ∈ g.stepSets 0) ∧
        (∀ q ∈ L, ∀ a, q.getLast? = some a → a ∈ g.stepSets (N.toNat - 1)) := by
  have hn : 2 ≤ N.toNat := by omega
  refine ⟨buildGPF s e N.toNat d, mkGPF_ok hs he hN, ?_⟩
  intro L hL
  rcases hdis : (buildGPF s e N.toNat d).isDisconnected with hd | hd
  · rw [getAllPaths, if_neg (by rw [hdis]; simp)] at hL
    obtain rfl : getAllPathsList (buildGPF s e N.toNat d) = L := Except.ok.inj hL
    refine ⟨?_, getAllPathsList_nodup _, ?_, ?_⟩
    · intro q
      constructor
      · intro hq
        exact mem_allPaths_valid hn hsym hdis hq
      · intro hq
        exact (valid_mem_allPaths hn hsym hq).2
    · intro q hq a ha
      obtain ⟨v, hv, hss⟩ := mem_getAllPathsList.mp hq
      rw [buildGPF_dedge, buildGPF_numVertices] at hss
      rw [stepSuffix_head hss] at ha
      rwa [Option.some.inj ha] at hv
    · intro q hq a ha
      obtain ⟨v, hv, hss⟩ := mem_getAllPathsList.mp hq
      rw [buildGPF_dedge, buildGPF_numVertices] at hss
      have := stepSuffix_getLast (N.toNat - 1) 0 v q hss hv a ha
      rwa [show (0 + (N.toNat - 1) : Nat) = N.toNat - 1 by omega] at this
  · rw [getAllPaths, if_pos (by rw [hdis])] at hL
    exact absurd hL (by simp)

/-- C4: for every non-disconnected GraphPathFinder and every outcome of the
injected random source (any seed step below `N` and any chooser that picks
members of non-empty sets), `get_random_path()` returns a tuple that is an
element of the `get_all_paths()` enumeration. -/
theorem claim_C4 [LinearOrder V] {s e : Finset V} {N : Int} {d : DEdge V}
    (hs : s.Nonempty) (he : e.Nonempty) (hN : 2 ≤ N) (hsym : d.Symm) :
    ∃ g, mkGraphPathFinder s e N d = .ok g ∧
      ∀ (k : Nat) (pick : Finset V → V), g.isDisconnected = false →
        k ≤ N.toNat - 1 → (∀ t : Finset V, t.Nonempty → pick t ∈ t) →
        ∃ p L, getRandomPath g k pick = .ok p ∧ getAllPaths g = .ok L ∧
          p ∈ L := by
  have hn : 2 ≤ N.toNat := by omega
  refine ⟨buildGPF s e N.toNat d, mkGPF_ok hs he hN, ?_⟩
  intro k pick hdis hk hpick
  obtain ⟨S1, S2, S3, -, -⟩ := buildGPF_sound hn hsym hdis
  have hspec := getRandomPath_spec (g := buildGPF s e N.toNat d) hdis
    (by rw [buildGPF_numVertices, buildGPF_dedge]; exact S1)
    (by rw [buildGPF_numVertices, buildGPF_dedge]; exact S2)
    (by rw [buildGPF_numVertices]; exact S3)
    (by rw [buildGPF_dedge]; exact fun j _ u _ v _ => hsym u v)
    (k := k) (by rw [buildGPF_numVertices]; exact hk) hpick
  obtain ⟨p, hp, hpmem⟩ := hspec
  refine ⟨p, getAllPathsList (buildGPF s e N.toNat d), hp, ?_, hpmem⟩
  simp only [getAllPaths, hdis, Bool.false_eq_true, if_false]

/-- C9: in a non-disconnected GraphPathFinder, every vertex of step set `i`
occurs at position `i` of at least one enumerated path (the step sets contain
exactly the on-path vertices), and the random walk of `get_random_path`
never meets an empty candidate set, for every outcome of the random
choices. -/
theorem claim_C9 [LinearOrder V] {s e : Finset V} {N : Int} {d : DEdge V}
    (hs : s.Nonempty) (he : e.Nonempty) (hN : 2 ≤ N) (hsym : d.Symm) :
    ∃ g, mkGraphPathFinder s e N d = .ok g ∧
      (g.isDisconnected = false →
        (∀ i, i ≤ N.toNat - 1 → ∀ v ∈ g.stepSets i,
          ∃ q ∈ getAllPathsList g, q[i]? = some v) ∧
        (∀ (k : Nat) (pick : Finset V → V), k ≤ N.toNat - 1 →
          (∀ t : Finset V, t.Nonempty → pick t ∈ t) →
          ∃ p, getRandomPath g k pick = .ok p)) := by
  have hn : 2 ≤ N.toNat := by omega
  refine ⟨buildGPF s e N.toNat d, mkGPF_ok hs he hN, ?_⟩
  intro hdis
  obtain ⟨S1, S2, S3, -, -⟩ := buildGPF_sound hn hsym hdis
  constructor
  · intro i hi v hv
    obtain ⟨q1, hq1⟩ := ex_stepInit S2 i v hi hv
    obtain ⟨q2, hq2⟩ := ex_stepSuffix S1 (N.toNat - 1 - i) i v (by omega) hv
    obtain ⟨w, hw, hglue⟩ := stepInit_glue i v q1 q2 _ hq1 hv hq2
    rw [show (i + (N.toNat - 1 - i) : Nat) = N.toNat - 1 by omega] at hglue
    refine ⟨q1 ++ q2.tail, ?_, ?_⟩
    · rw [mem_getAllPathsList, buildGPF_numVertices, buildGPF_dedge]
      exact ⟨w, hw, hglue⟩
    · have hlen := stepInit_length i v q1 hq1
      rw [List.getElem?_append_left (by omega)]
      have hgl := stepInit_getLast i v q1 hq1
      rw [List.getLast?_eq_getElem?] at hgl
      rwa [show (q1.length - 1 : Nat) = i by omega] at hgl
  · intro k pick hk hpick
    obtain ⟨p, hp, -⟩ := getRandomPath_spec (g := buildGPF s e N.toNat d) hdis
      (by rw [buildGPF_numVertices, buildGPF_dedge]; exact S1)
      (by rw [buildGPF_numVertices, buildGPF_dedge]; exact S2)
      (by rw [buildGPF_numVertices]; exact S3)
      (by rw [buildGPF_dedge]; exact fun j _ u _ v _ => hsym u v)
      (k := k) (by rw [buildGPF_numVertices]; exact hk) hpick
    exact ⟨p, hp⟩

/-- Witness for C3 on the self-loop example graph. -/
theorem claim_C3_witness :
    (({1} : Finset (Fin 4)).Nonempty ∧ ({3} : Finset (Fin 4)).Nonempty ∧
      (2 : Int) ≤ 5 ∧ exampleDEdge.Symm) ∧
    ∃ g, mkGraphPathFinder ({1} : Finset (Fin 4)) {3} 5 exampleDEdge = .ok g ∧
      ∀ L, getAllPaths g = .ok L →
        (∀ q, q ∈ L ↔ IsValidPath {1} {3} exampleDEdge (Int.toNat 5) q) ∧
        L.Nodup ∧
        (∀ q ∈ L, ∀ a, q.head? = some a → a ∈ g.stepSets 0) ∧
        (∀ q ∈ L, ∀ a, q.getLast? = some a → a ∈ g.stepSets (Int.toNat 5 - 1)) :=
  ⟨⟨by decide, by decide, by decide, by decide⟩,
    claim_C3 (by decide) (by decide) (by decide) (by decide)⟩

/-- Witness for C4 on the self-loop example graph. -/
theorem claim_C4_witness :
    (({1} : Finset (Fin 4)).Nonempty ∧ ({3} : Finset (Fin 4)).Nonempty ∧
      (2 : Int) ≤ 5 ∧ exampleDEdge.Symm) ∧
    ∃ g, mkGraphPathFinder ({1} : Finset (Fin 4)) {3} 5 exampleDEdge = .ok g ∧
      ∀ (k : Nat) (pick : Finset (Fin 4) → Fin 4), g.isDisconnected = false →
        k ≤ Int.toNat 5 - 1 →
        (∀ t : Finset (Fin 4), t.Nonempty → pick t ∈ t) →
        ∃ p L, getRandomPath g k pick = .ok p ∧ getAllPaths g = .ok L ∧
          p ∈ L :=
  ⟨⟨by decide, by decide, by decide, by decide⟩,
    claim_C4 (by decide) (by decide) (by decide) (by decide)⟩

/-- Witness for C9 on the self-loop example graph. -/
theorem claim_C9_witness :
    (({1} : Finset (Fin 4)).Nonempty ∧ ({3} : Finset (Fin 4)).Nonempty ∧
      (2 : Int) ≤ 5 ∧ exampleDEdge.Symm) ∧
    ∃ g, mkGraphPathFinder ({1} : Finset (Fin 4)) {3} 5 exampleDEdge = .ok g ∧
      (g.isDisconnected = false →
        (∀ i, i ≤ Int.toNat 5 - 1 → ∀ v ∈ g.stepSets i,
          ∃ q ∈ getAllPathsList g, q[i]? = some v) ∧
        (∀ (k : Nat) (pick : Finset (Fin 4) → Fin 4), k ≤ Int.toNat 5 - 1 →
          (∀ t : Finset (Fin 4), t.Nonempty → pick t ∈ t) →
          ∃ p, getRandomPath g k pick = .ok p)) :=
  ⟨⟨by decide, by decide, by decide, by decide⟩,
    claim_C9 (by decide) (by decide) (by decide) (by decide)⟩

/-! ## dedge.py — DirectedEdgeGetter -/

/-- An n-gram (a fixed-length string) is modelled as a list of characters. -/
abbrev Ngram := List Char

deriving instance DecidableEq for Except

/-- Python's `ng[-k:]` for `k ≥ 1`: the last `k` characters. -/
def lastChars (k : Nat) (ng : Ngram) : Ngram :=
  ng.drop (ng.length - k)

/-- `DirectedEdgeGetter` (dedge.py): holds the two n-gram pools, their fixed
lengths and the overlap length.  The two overlap multimaps built by
`_get_start_overlap_dict` / `_get_end_overlap_dict` map a key to the set of
pool n-grams with that suffix (resp. prefix); a lookup of key `x` in them is
embedded directly as the set of pool n-grams whose suffix (resp. prefix)
equals `x`. -/
structure DirectedEdgeGetter where
  startNgs : List Ngram
  endNgs : List Ngram
  lenStart : Nat
  lenEnd : Nat
  lenOverlap : Nat
deriving DecidableEq

/-- `DirectedEdgeGetter.__init__` (dedge.py lines 47-69): requires both pools
non-empty, both n-gram lengths at least 2 (read off the first element of each
pool), and — via the dictionary-building loops — every pool element to have
its pool's length.  The overlap length is `min(len_start, len_end) - 1`. -/
def mkDirectedEdgeGetter (startNgs endNgs : List Ngram) :
    Except String DirectedEdgeGetter :=
  if startNgs.length < 1 ∨ endNgs.length < 1 then
    .error "Must provide some start and end n-grams."
  else
    let lenStart := (startNgs.headD []).length
    let lenEnd := (endNgs.headD []).length
    if lenStart < 2 ∨ lenEnd < 2 then
      .error "n-grams must have a length greater than one."
    else if startNgs.any (fun ng => ng.length ≠ lenStart) then
      .error "n-gram is not of the expected length"
    else if endNgs.any (fun ng => ng.length ≠ lenEnd) then
      .error "n-gram is not of the expected length"
    else .ok ⟨startNgs, endNgs, lenStart, lenEnd, min lenStart lenEnd - 1⟩

/-- `DirectedEdgeGetter.get_end_vertices` (dedge.py lines 71-83): after a
length check on the argument, look up the last `len_overlap` characters of
`start_ng` in the by-prefix dictionary of the end pool. -/
def DirectedEdgeGetter.getEndVertices (dg : DirectedEdgeGetter) (startNg : Ngram) :
    Except String (Finset Ngram) :=
  if startNg.length ≠ dg.lenStart then .error "n-gram is not of the expected length"
  else .ok ((dg.endNgs.filter
    (fun ng => ng.take dg.lenOverlap = lastChars dg.lenOverlap startNg)).toFinset)

/-- `DirectedEdgeGetter.get_start_vertices` (dedge.py lines 85-97): after a
length check on the argument, look up the first `len_overlap` characters of
`end_ng` in the by-suffix dictionary of the start pool. -/
def DirectedEdgeGetter.getStartVertices (dg : DirectedEdgeGetter) (endNg : Ngram) :
    Except String (Finset Ngram) :=
  if endNg.length ≠ dg.lenEnd then .error "n-gram is not of the expected length"
  else .ok ((dg.startNgs.filter
    (fun ng => lastChars dg.lenOverlap ng = endNg.take dg.lenOverlap)).toFinset)

/-- The `DirectedEdgeGetter` as handed to `GraphPathFinder` by
`SequenceCreator._multi_middle_vertex_init` (create.py lines 121-124), with
the length check of the two getters dropped: inside the path finder the
getters are only ever applied to vertices drawn from the middle pool, whose
lengths were validated at construction, so the check never fires there. -/
def DirectedEdgeGetter.toDEdge (dg : DirectedEdgeGetter) : DEdge Ngram where
  getEnd := fun s => (dg.endNgs.filter
    (fun ng => ng.take dg.lenOverlap = lastChars dg.lenOverlap s)).toFinset
  getStart := fun e => (dg.startNgs.filter
    (fun ng => lastChars dg.lenOverlap ng = e.take dg.lenOverlap)).toFinset

/-! ## create.py — SequenceCreator -/

/-- `_concat_ngram_list` (create.py lines 205-228): the first n-gram, then
every subsequent n-gram with its leading `min(len(prev), len(ngram)) - 1`
characters (the trusted overlap) dropped.  The empty list (on which the
Python indexes out of bounds) is mapped to the empty string. -/
def concatTail (prev : Ngram) : List Ngram → Ngram
  | [] => []
  | ng :: rest => ng.drop (min prev.length ng.length - 1) ++ concatTail ng rest

/-- `_concat_ngram_list` itself: the first n-gram followed by the loop over
the rest (see `concatTail`). -/
def concatNgramList : List Ngram → Ngram
  | [] => []
  | a :: rest => a ++ concatTail a rest

/-- `get_len_single_middle_vertex` (create.py lines 191-203). -/
def getLenSingleMiddleVertex (lenLeading lenMiddle lenTrailing : Nat) : Nat :=
  (max lenLeading lenMiddle + 1) + (max lenTrailing lenMiddle + 1) - lenMiddle

/-- `_get_num_middle_vertices` (create.py lines 170-189): Python integer
arithmetic, so the result may be zero or negative. -/
def getNumMiddleVertices (lenSeq : Int) (lenLeading lenMiddle lenTrailing : Nat) : Int :=
  lenSeq - (getLenSingleMiddleVertex lenLeading lenMiddle lenTrailing : Int) + 1

/-- Expansion of a list of n-grams through a fallible getter, as used by
`expand_update` over `DirectedEdgeGetter` methods in
`SequenceCreator.__init__` (create.py lines 72-75): the union of the getter's
results, propagating any length-validation error. -/
def expandExcept (xs : List Ngram) (f : Ngram → Except String (Finset Ngram)) :
    Except String (Finset Ngram) :=
  match xs with
  | [] => .ok ∅
  | a :: rest => do
    let s ← f a
    let t ← expandExcept rest f
    return s ∪ t

/-- The computation of `self._start_vertices` in `SequenceCreator.__init__`
(create.py lines 72-73): the middle pool intersected with the expansion of
the leading pool through `get_end_vertices` of the leading→middle getter. -/
def startVerticesOf (l2m : DirectedEdgeGetter) (ngramsMiddle ngramsLeading : List Ngram) :
    Except String (Finset Ngram) := do
  let ex ← expandExcept ngramsLeading l2m.getEndVertices
  return ngramsMiddle.toFinset ∩ ex

/-- The computation of `self._end_vertices` in `SequenceCreator.__init__`
(create.py lines 74-75): the middle pool intersected with the expansion of
the trailing pool through `get_start_vertices` of the middle→trailing
getter. -/
def endVerticesOf (m2t : DirectedEdgeGetter) (ngramsMiddle ngramsTrailing : List Ngram) :
    Except String (Finset Ngram) := do
  let ex ← expandExcept ngramsTrailing m2t.getStartVertices
  return ngramsMiddle.toFinset ∩ ex

/-- The path-producing state a `SequenceCreator` ends up with: none at all
(construction bailed out after marking the instance disconnected), the single
middle vertex shortcut (`_single_middle_vertex_init`, holding the legal
middle vertices), or a full `GraphPathFinder`
(`_multi_middle_vertex_init`). -/
inductive PathSource where
  | none : PathSource
  | single : Finset Ngram → PathSource
  | multi : GraphPathFinder Ngram → PathSource

/-- The state of a constructed `SequenceCreator` (create.py). -/
structure SequenceCreator where
  l2m : DirectedEdgeGetter
  m2t : DirectedEdgeGetter
  isDisconnected : Bool
  source : PathSource

/-- `SequenceCreator.__init__` (create.py lines 54-95) together with
`_single_middle_vertex_init` and `_multi_middle_vertex_init`: build the two
outer edge getters, compute the start/end middle vertices, bail out as
disconnected if either set is empty, otherwise derive the required number of
middle vertices from the requested length and dispatch on it.  Errors raised
by any constructor propagate. -/
def mkSequenceCreator (sequenceLength : Int)
    (ngramsLeading ngramsMiddle ngramsTrailing : List Ngram) :
    Except String SequenceCreator := do
  let l2m ← mkDirectedEdgeGetter ngramsLeading ngramsMiddle
  let m2t ← mkDirectedEdgeGetter ngramsMiddle ngramsTrailing
  let startVertices ← startVerticesOf l2m ngramsMiddle ngramsLeading
  let endVertices ← endVerticesOf m2t ngramsMiddle ngramsTrailing
  if startVertices = ∅ ∨ endVertices = ∅ then
    return ⟨l2m, m2t, true, .none⟩
  else
    let lenLeading := (ngramsLeading.headD []).length
    let lenMiddle := (ngramsMiddle.headD []).length
    let lenTrailing := (ngramsTrailing.headD []).length
    let numMiddleVertices :=
      getNumMiddleVertices sequenceLength lenLeading lenMiddle lenTrailing
    if numMiddleVertices = 1 then
      let middle := startVertices ∩ endVertices
      if middle = ∅ then return ⟨l2m, m2t, true, .none⟩
      else return ⟨l2m, m2t, false, .single middle⟩
    else
      let m2m ← mkDirectedEdgeGetter ngramsMiddle ngramsMiddle
      let gpf ← mkGraphPathFinder startVertices endVertices numMiddleVertices m2m.toDEdge
      return ⟨l2m, m2t, gpf.isDisconnected, .multi gpf⟩

/-- The `_get_all_paths_fn` of a `SequenceCreator`: the singleton paths of
the shortcut set in the single middle vertex scenario (create.py line 112),
or the path finder's enumeration in the multi vertex scenario.  It is only
ever consulted when the instance is not disconnected, in which case the
source is never `.none`. -/
def SequenceCreator.getPathsList (sc : SequenceCreator) :
    Except String (List (List Ngram)) :=
  match sc.source with
  | .none => .error "Provided n-grams are disconnected."
  | .single m => .ok ((enumList m).map (fun x => [x]))
  | .multi gpf => getAllPaths gpf

/-- The two inner loops of `SequenceCreator.get_all_sequences` (create.py
lines 162-168): for one middle path, every legal leading n-gram crossed with
every legal trailing n-gram, concatenated around the path. -/
def SequenceCreator.seqsForPath (sc : SequenceCreator) (path : List Ngram) :
    Except String (List Ngram) := do
  let leads ← sc.l2m.getStartVertices (path.headD [])
  let trails ← sc.m2t.getEndVertices (path.getLastD [])
  return (enumList leads).flatMap fun lg =>
    (enumList trails).map fun tg => concatNgramList (lg :: path ++ [tg])

/-- `SequenceCreator.get_all_sequences` (create.py lines 154-168). -/
def SequenceCreator.getAllSequences (sc : SequenceCreator) :
    Except String (List Ngram) :=
  if sc.isDisconnected then .error "Provided n-grams are disconnected."
  else do
    let paths ← sc.getPathsList
    let seqs ← paths.mapM sc.seqsForPath
    return seqs.flatten

/-- The `_get_random_path_fn` of a `SequenceCreator`: a uniform choice from
the shortcut set in the single middle vertex scenario (create.py line 111),
or `get_random_path` of the path finder.  The random source is the same
seed/chooser pair as in `getRandomPath`. -/
def SequenceCreator.getRandomPathFn (sc : SequenceCreator) (k : Nat)
    (pick : Finset Ngram → Ngram) : Except String (List Ngram) :=
  match sc.source with
  | .none => .error "Provided n-grams are disconnected."
  | .single m => if m = ∅ then .error "empty random choice" else .ok [pick m]
  | .multi gpf => getRandomPath gpf k pick

/-- `SequenceCreator.get_random_sequence` (create.py lines 135-152): one
random middle path, one random leading n-gram overlapping the path's first
vertex, one random trailing n-gram overlapping the path's last vertex,
concatenated.  As in `getRandomPath`, handing `random.choice` an empty
collection is the error case. -/
def SequenceCreator.getRandomSequence (sc : SequenceCreator) (k : Nat)
    (pick : Finset Ngram → Ngram) : Except String Ngram :=
  if sc.isDisconnected then .error "Provided n-grams are disconnected."
  else do
    let path ← sc.getRandomPathFn k pick
    let leads ← sc.l2m.getStartVertices (path.headD [])
    let trails ← sc.m2t.getEndVertices (path.getLastD [])
    if leads = ∅ ∨ trails = ∅ then .error "empty random choice"
    else return concatNgramList (pick leads :: path ++ [pick trails])

/-! ## Basic facts about the DirectedEdgeGetter construction -/

theorem except_bind_ok {α β : Type} (a : α) (f : α → Except String β) :
    ((Except.ok a : Except String α) >>= f) = f a := rfl

theorem except_bind_error {α β : Type} (msg : String) (f : α → Except String β) :
    ((Except.error msg : Except String α) >>= f) = .error msg := rfl

theorem mkDEG_ok_elim {S E : List Ngram} {dg : DirectedEdgeGetter}
    (h : mkDirectedEdgeGetter S E = .ok dg) :
    dg.startNgs = S ∧ dg.endNgs = E ∧
      dg.lenStart = (S.headD []).length ∧ dg.lenEnd = (E.headD []).length ∧
      dg.lenOverlap = min dg.lenStart dg.lenEnd - 1 ∧
      2 ≤ dg.lenStart ∧ 2 ≤ dg.lenEnd ∧ 1 ≤ S.length ∧ 1 ≤ E.length ∧
      (∀ ng ∈ S, ng.length = dg.lenStart) ∧ (∀ ng ∈ E, ng.length = dg.lenEnd) := by
  simp only [mkDirectedEdgeGetter] at h
  split_ifs at h with h1 h2 h3 h4
  push_neg at h1 h2
  simp only [List.any_eq_true, decide_eq_true_eq, not_exists, not_and, not_not] at h3 h4
  injection h with h
  subst h
  exact ⟨rfl, rfl, rfl, rfl, rfl, h2.1, h2.2, h1.1, h1.2, h3, h4⟩

/-- The middle→middle overlap getter always constructs successfully once any
getter with the middle pool as its start pool has: the pool is non-empty,
uniform-length, with length at least 2. -/
theorem mkDEG_self_ok {mid trail : List Ngram} {b : DirectedEdgeGetter}
    (h : mkDirectedEdgeGetter mid trail = .ok b) :
    mkDirectedEdgeGetter mid mid =
      .ok ⟨mid, mid, (mid.headD []).length, (mid.headD []).length,
        min (mid.headD []).length (mid.headD []).length - 1⟩ := by
  obtain ⟨hS, -, hlenS, -, -, h2S, -, h1S, -, hlen, -⟩ := mkDEG_ok_elim h
  rw [hlenS] at h2S
  have hlen' : ∀ ng ∈ mid, ng.length = (mid.headD []).length := by
    intro ng hng
    rw [hlen ng hng, hlenS]
  simp only [mkDirectedEdgeGetter]
  rw [if_neg (by omega), if_neg (by omega), if_neg ?_, if_neg ?_]
  · simp only [List.any_eq_true, decide_eq_true_eq, not_exists, not_and, not_not]
    intro ng hng
    exact hlen' ng hng
  · simp only [List.any_eq_true, decide_eq_true_eq, not_exists, not_and, not_not]
    intro ng hng
    exact hlen' ng hng

/-- C5: for every DirectedEdgeGetter built from a start pool `S` and an end
pool `E`, and every `s ∈ S`, `e ∈ E`: `e ∈ get_end_vertices(s)` if and only
if `s ∈ get_start_vertices(e)`. -/
theorem claim_C5 {S E : List Ngram} {dg : DirectedEdgeGetter}
    (h : mkDirectedEdgeGetter S E = .ok dg) {s e : Ngram}
    (hs : s ∈ S) (he : e ∈ E) :
    ∃ A B, dg.getEndVertices s = .ok A ∧ dg.getStartVertices e = .ok B ∧
      (e ∈ A ↔ s ∈ B) := by
  obtain ⟨hS, hE, -, -, -, -, -, -, -, hlenS, hlenE⟩ := mkDEG_ok_elim h
  refine ⟨(dg.endNgs.filter
      (fun ng => ng.take dg.lenOverlap = lastChars dg.lenOverlap s)).toFinset,
    (dg.startNgs.filter
      (fun ng => lastChars dg.lenOverlap ng = e.take dg.lenOverlap)).toFinset,
    ?_, ?_, ?_⟩
  · unfold DirectedEdgeGetter.getEndVertices
    rw [if_neg (by simp [hlenS s hs])]
  · unfold DirectedEdgeGetter.getStartVertices
    rw [if_neg (by simp [hlenE e he])]
  · simp only [List.mem_toFinset, List.mem_filter, decide_eq_true_eq, hS, hE]
    constructor
    · rintro ⟨-, hov⟩
      exact ⟨hs, hov.symm⟩
    · rintro ⟨-, hov⟩
      exact ⟨he, hov.symm⟩

/-- Witness for C5 at a concrete index: pools `{"ax","bx"}` and
`{"xy","zz"}`. -/
theorem claim_C5_witness :
    ∃ A B,
      (DirectedEdgeGetter.getEndVertices ⟨["ax".toList, "bx".toList],
        ["xy".toList, "zz".toList], 2, 2, 1⟩ "ax".toList) = .ok A ∧
      (DirectedEdgeGetter.getStartVertices ⟨["ax".toList, "bx".toList],
        ["xy".toList, "zz".toList], 2, 2, 1⟩ "xy".toList) = .ok B ∧
      ("xy".toList ∈ A ↔ "ax".toList ∈ B) :=
  claim_C5 (S := ["ax".toList, "bx".toList]) (E := ["xy".toList, "zz".toList])
    rfl (by decide) (by decide)

/-! ## C7 — concatenation -/

/-- The loop of `_concat_ngram_list`, phrased over predecessor/value pairs:
each subsequent n-gram contributes its characters from index
`min(len(prev), len(v)) - 1` onward. -/
theorem concatTail_eq_zip (l : List Ngram) : ∀ prev : Ngram,
    concatTail prev l =
      ((prev :: l).zip l).flatMap
        (fun pv => pv.2.drop (min pv.1.length pv.2.length - 1)) := by
  induction l with
  | nil => intro prev; rfl
  | cons ng rest ih =>
    intro prev
    simp only [concatTail, List.zip_cons_cons, List.flatMap_cons, ih ng]

/-- C7: the concatenation function returns the first n-gram followed, for
each subsequent n-gram `v` with predecessor `prev`, by the characters of `v`
from index `min(len(prev), len(v)) - 1` onward — with no validation of the
overlapping regions (third example) — and maps the three spec examples to
`"axx1"`, `"abcdef"` and `"axzyzyzyx1"`. -/
theorem claim_C7 :
    (∀ (a : Ngram) (l : List Ngram),
      concatNgramList (a :: l) =
        a ++ ((a :: l).zip l).flatMap
          (fun pv => pv.2.drop (min pv.1.length pv.2.length - 1))) ∧
    concatNgramList ["ax".toList, "xx".toList, "x1".toList] = "axx1".toList ∧
    concatNgramList ["abc".toList, "bcde".toList, "ef".toList] = "abcdef".toList ∧
    concatNgramList ["ax".toList, "xzyzyzyx".toList, "x1".toList] =
      "axzyzyzyx1".toList := by
  refine ⟨fun a l => ?_, by decide, by decide, by decide⟩
  simp only [concatNgramList, concatTail_eq_zip]

/-! ## C8 and C10 — SequenceCreator construction outcomes -/

/-- C8: whenever the set of middle n-grams reachable from the leading pool or
the set reachable to the trailing pool is empty, construction completes with
`is_disconnected() == true` and both production operations fail with the
disconnected error; in particular this happens for leading `{"aa"}`, middle
`{"xx"}`, trailing `{"11"}` at length 5. -/
theorem claim_C8 :
    (∀ (L : Int) (lead mid trail : List Ngram) (a b : DirectedEdgeGetter)
      (sv ev : Finset Ngram),
      mkDirectedEdgeGetter lead mid = .ok a →
      mkDirectedEdgeGetter mid trail = .ok b →
      startVerticesOf a mid lead = .ok sv →
      endVerticesOf b mid trail = .ok ev →
      sv = ∅ ∨ ev = ∅ →
      ∃ sc, mkSequenceCreator L lead mid trail = .ok sc ∧
        sc.isDisconnected = true ∧
        sc.getAllSequences = .error "Provided n-grams are disconnected." ∧
        ∀ (k : Nat) (pick : Finset Ngram → Ngram),
          sc.getRandomSequence k pick =
            .error "Provided n-grams are disconnected.") ∧
    (∃ sc, mkSequenceCreator 5 ["aa".toList] ["xx".toList] ["11".toList] =
        .ok sc ∧
      sc.isDisconnected = true ∧
      sc.getAllSequences = .error "Provided n-grams are disconnected." ∧
      ∀ (k : Nat) (pick : Finset Ngram → Ngram),
        sc.getRandomSequence k pick =
          .error "Provided n-grams are disconnected.") := by
  constructor
  · intro L lead mid trail a b sv ev hl2m hm2t hsv hev hempty
    refine ⟨⟨a, b, true, .none⟩, ?_, rfl, rfl, fun k pick => rfl⟩
    simp only [mkSequenceCreator, hl2m, hm2t, hsv, hev, except_bind_ok]
    rw [if_pos hempty]
    rfl
  · exact ⟨⟨⟨["aa".toList], ["xx".toList], 2, 2, 1⟩,
      ⟨["xx".toList], ["11".toList], 2, 2, 1⟩, true, .none⟩,
      rfl, rfl, rfl, fun k pick => rfl⟩

/-- Witness for the universally quantified part of C8, instantiated at the
spec's disconnected scenario. -/
theorem claim_C8_witness :
    mkDirectedEdgeGetter ["aa".toList] ["xx".toList] =
      .ok ⟨["aa".toList], ["xx".toList], 2, 2, 1⟩ ∧
    mkDirectedEdgeGetter ["xx".toList] ["11".toList] =
      .ok ⟨["xx".toList], ["11".toList], 2, 2, 1⟩ ∧
    startVerticesOf ⟨["aa".toList], ["xx".toList], 2, 2, 1⟩ ["xx".toList]
      ["aa".toList] = .ok ∅ ∧
    endVerticesOf ⟨["xx".toList], ["11".toList], 2, 2, 1⟩ ["xx".toList]
      ["11".toList] = .ok ∅ ∧
    ((∅ : Finset Ngram) = ∅ ∨ (∅ : Finset Ngram) = ∅) ∧
    ∃ sc, mkSequenceCreator 5 ["aa".toList] ["xx".toList] ["11".toList] =
        .ok sc ∧
      sc.isDisconnected = true ∧
      sc.getAllSequences = .error "Provided n-grams are disconnected." ∧
      ∀ (k : Nat) (pick : Finset Ngram → Ngram),
        sc.getRandomSequence k pick =
          .error "Provided n-grams are disconnected." :=
  ⟨rfl, rfl, rfl, rfl, Or.inl rfl,
    claim_C8.1 5 ["aa".toList] ["xx".toList] ["11".toList]
      ⟨["aa".toList], ["xx".toList], 2, 2, 1⟩
      ⟨["xx".toList], ["11".toList], 2, 2, 1⟩ ∅ ∅
      rfl rfl rfl rfl (Or.inl rfl)⟩

/-- C10: when the requested length makes the required number of middle
vertices smaller than 1 (and the start/end middle vertex sets are
non-empty), construction propagates the ValueError of
`GraphPathFinder.__init__` about the number of connected vertices rather
than building an object. -/
theorem claim_C10 (L : Int) (lead mid trail : List Ngram)
    (a b : DirectedEdgeGetter) (sv ev : Finset Ngram)
    (hl2m : mkDirectedEdgeGetter lead mid = .ok a)
    (hm2t : mkDirectedEdgeGetter mid trail = .ok b)
    (hsv : startVerticesOf a mid lead = .ok sv)
    (hev : endVerticesOf b mid trail = .ok ev)
    (hsvne : sv ≠ ∅) (hevne : ev ≠ ∅)
    (hnum : getNumMiddleVertices L (lead.headD []).length
      (mid.headD []).length (trail.headD []).length < 1) :
    mkSequenceCreator L lead mid trail =
      .error "Number of connected vertices must be greater than one." := by
  have hsvc : ¬(sv.card < 1) := by
    have := Finset.card_pos.mpr (Finset.nonempty_iff_ne_empty.mpr hsvne)
    omega
  have hevc : ¬(ev.card < 1) := by
    have := Finset.card_pos.mpr (Finset.nonempty_iff_ne_empty.mpr hevne)
    omega
  simp only [mkSequenceCreator, hl2m, hm2t, hsv, hev, except_bind_ok]
  rw [if_neg (by simp [hsvne, hevne]), if_neg (by omega),
    mkDEG_self_ok hm2t, except_bind_ok]
  unfold mkGraphPathFinder
  rw [if_neg hsvc, if_neg hevc, if_pos (by omega)]
  rfl

/-! ## C6 — the end-to-end scenario -/

theorem except_ok_toOptionD {α : Type} (x : Except String α) (d : α)
    (h : x.toOption.isSome = true) : x = .ok (x.toOption.getD d) := by
  cases x with
  | error e => simp [Except.toOption] at h
  | ok a => rfl

/-- A junk SequenceCreator used as the default of `Option.getD`. -/
def scDflt : SequenceCreator :=
  ⟨⟨[], [], 0, 0, 0⟩, ⟨[], [], 0, 0, 0⟩, true, .none⟩

/-- The pools of the spec's end-to-end scenario. -/
def leading6 : List Ngram := ["ax".toList, "bx".toList, "aa".toList]

def middle6 : List Ngram :=
  ["xx".toList, "xy".toList, "yx".toList, "yy".toList, "zz".toList, "xz".toList]

def trailing6 : List Ngram := ["x1".toList, "x2".toList, "11".toList]

/-- The eight sequences the scenario must produce. -/
def target6 : Finset Ngram :=
  {"axxx1".toList, "bxxx1".toList, "axyx1".toList, "bxyx1".toList,
   "axxx2".toList, "bxxx2".toList, "axyx2".toList, "bxyx2".toList}

/-- Projection of the path finder out of a multi-middle-vertex
SequenceCreator (with a default for the other shapes). -/
def SequenceCreator.gpfD (sc : SequenceCreator) (dflt : GraphPathFinder Ngram) :
    GraphPathFinder Ngram :=
  match sc.source with
  | .multi g => g
  | _ => dflt

def gpfDflt : GraphPathFinder Ngram :=
  ⟨fun _ => ∅, 0, ⟨fun _ => ∅, fun _ => ∅⟩, true⟩

/-- C6: the end-to-end scenario — the constructed SequenceCreator yields
exactly the eight expected sequences, and `get_random_sequence` returns a
member of that set for every outcome of the random source (every seed step
`random.randint(0, 1)` and every sound chooser). -/
theorem claim_C6 :
    ∃ sc, mkSequenceCreator 5 leading6 middle6 trailing6 = .ok sc ∧
      (∃ L, sc.getAllSequences = .ok L ∧ L.toFinset = target6) ∧
      (∀ (k : Nat) (pick : Finset Ngram → Ngram), k ≤ 1 →
        (∀ t : Finset Ngram, t.Nonempty → pick t ∈ t) →
        ∃ out, sc.getRandomSequence k pick = .ok out ∧ out ∈ target6) := by
  have hsome : (mkSequenceCreator 5 leading6 middle6 trailing6).toOption.isSome
      = true := by decide
  refine ⟨(mkSequenceCreator 5 leading6 middle6 trailing6).toOption.getD scDflt,
    except_ok_toOptionD _ _ hsome, ?_, ?_⟩
  · have h1 : ((((mkSequenceCreator 5 leading6 middle6
        trailing6).toOption.getD scDflt).getAllSequences).toOption.isSome)
        = true := by decide
    exact ⟨_, except_ok_toOptionD _ [] h1, by decide⟩
  · intro k pick hk hpick
    set sc := (mkSequenceCreator 5 leading6 middle6 trailing6).toOption.getD
      scDflt with hscdef
    set g := sc.gpfD gpfDflt with hgdef
    have hfn : sc.getRandomPathFn k pick = getRandomPath g k pick := rfl
    have hnum : g.numVertices = 2 := by decide
    have hdisg : g.isDisconnected = false := by decide
    have S1 : ∀ j, j + 1 ≤ g.numVertices - 1 → ∀ v ∈ g.stepSets j,
        ∃ w ∈ g.stepSets (j + 1), w ∈ g.dedge.getEnd v := by
      intro j hj
      rw [hnum] at hj
      obtain rfl : j = 0 := by omega
      decide
    have S2 : ∀ j, 1 ≤ j → j ≤ g.numVertices - 1 → ∀ v ∈ g.stepSets j,
        ∃ u ∈ g.stepSets (j - 1), v ∈ g.dedge.getEnd u := by
      intro j hj1 hj2
      rw [hnum] at hj2
      obtain rfl : j = 1 := by omega
      decide
    have S3 : ∀ j, j ≤ g.numVertices - 1 → (g.stepSets j).Nonempty := by
      intro j hj
      rw [hnum] at hj
      obtain rfl | rfl : j = 0 ∨ j = 1 := by omega
      · decide
      · decide
    have hsymL : ∀ j, j + 1 ≤ g.numVertices - 1 → ∀ u ∈ g.stepSets j,
        ∀ v ∈ g.stepSets (j + 1),
        (v ∈ g.dedge.getEnd u ↔ u ∈ g.dedge.getStart v) := by
      intro j hj
      rw [hnum] at hj
      obtain rfl : j = 0 := by omega
      decide
    have hkg : k ≤ g.numVertices - 1 := by
      rw [hnum]
      omega
    obtain ⟨p, hp, hpmem⟩ := getRandomPath_spec hdisg S1 S2 S3 hsymL hkg hpick
    have hpaths : ∀ q ∈ getAllPathsList g,
        q = ["xx".toList, "xx".toList] ∨ q = ["xy".toList, "yx".toList] := by
      decide
    have hdisc : sc.isDisconnected = false := by decide
    simp only [SequenceCreator.getRandomSequence, hdisc, Bool.false_eq_true,
      if_false, hfn, hp, except_bind_ok]
    rcases hpaths p hpmem with rfl | rfl
    · have hleads : sc.l2m.getStartVertices
          ((["xx".toList, "xx".toList] : List Ngram).headD []) =
          .ok {"ax".toList, "bx".toList} := by decide
      have htrails : sc.m2t.getEndVertices
          ((["xx".toList, "xx".toList] : List Ngram).getLastD []) =
          .ok {"x1".toList, "x2".toList} := by decide
      simp only [hleads, htrails, except_bind_ok]
      rw [if_neg (by decide)]
      refine ⟨_, rfl, ?_⟩
      have h1 := hpick {"ax".toList, "bx".toList} (by decide)
      have h2 := hpick {"x1".toList, "x2".toList} (by decide)
      rw [Finset.mem_insert, Finset.mem_singleton] at h1 h2
      rcases h1 with h1 | h1 <;> rcases h2 with h2 | h2 <;> rw [h1, h2] <;>
        decide
    · have hleads : sc.l2m.getStartVertices
          ((["xy".toList, "yx".toList] : List Ngram).headD []) =
          .ok {"ax".toList, "bx".toList} := by decide
      have htrails : sc.m2t.getEndVertices
          ((["xy".toList, "yx".toList] : List Ngram).getLastD []) =
          .ok {"x1".toList, "x2".toList} := by decide
      simp only [hleads, htrails, except_bind_ok]
      rw [if_neg (by decide)]
      refine ⟨_, rfl, ?_⟩
      have h1 := hpick {"ax".toList, "bx".toList} (by decide)
      have h2 := hpick {"x1".toList, "x2".toList} (by decide)
      rw [Finset.mem_insert, Finset.mem_singleton] at h1 h2
      rcases h1 with h1 | h1 <;> rcases h2 with h2 | h2 <;> rw [h1, h2] <;>
        decide

/-- A concrete sound chooser: the first element of the sorted enumeration. -/
theorem pick0_sound : ∀ t : Finset Ngram, t.Nonempty → (enumList t).headD [] ∈ t := by
  intro t ht
  cases henum : enumList t with
  | nil =>
    obtain ⟨x, hx⟩ := ht
    have hmem : x ∈ enumList t := mem_enumList.mpr hx
    rw [henum] at hmem
    simp at hmem
  | cons a l =>
    have hmem : a ∈ enumList t := by
      rw [henum]
      exact List.mem_cons_self a l
    exact mem_enumList.mp hmem

/-- Witness for C6: the random part instantiated at seed step 0 and the
sorted-first chooser. -/
theorem claim_C6_witness :
    ∃ sc, mkSequenceCreator 5 leading6 middle6 trailing6 = .ok sc ∧
      (∃ L, sc.getAllSequences = .ok L ∧ L.toFinset = target6) ∧
      ((0 : Nat) ≤ 1 ∧
        (∀ t : Finset Ngram, t.Nonempty → (enumList t).headD [] ∈ t) ∧
        ∃ out, sc.getRandomSequence 0 (fun t => (enumList t).headD []) =
          .ok out ∧ out ∈ target6) := by
  obtain ⟨sc, hmk, hall, hrand⟩ := claim_C6
  obtain ⟨out, hout, houtmem⟩ := hrand 0 _ (by omega) pick0_sound
  exact ⟨sc, hmk, hall, by omega, pick0_sound, out, hout, houtmem⟩

/-- Witness for C10: pools `{"ax"}`, `{"xx"}`, `{"x1"}` with requested
length 3, below the single-middle-vertex length 4. -/
theorem claim_C10_witness :
    mkDirectedEdgeGetter ["ax".toList] ["xx".toList] =
      .ok ⟨["ax".toList], ["xx".toList], 2, 2, 1⟩ ∧
    mkDirectedEdgeGetter ["xx".toList] ["x1".toList] =
      .ok ⟨["xx".toList], ["x1".toList], 2, 2, 1⟩ ∧
    startVerticesOf ⟨["ax".toList], ["xx".toList], 2, 2, 1⟩ ["xx".toList]
      ["ax".toList] = .ok {"xx".toList} ∧
    endVerticesOf ⟨["xx".toList], ["x1".toList], 2, 2, 1⟩ ["xx".toList]
      ["x1".toList] = .ok {"xx".toList} ∧
    ({"xx".toList} : Finset Ngram) ≠ ∅ ∧
    getNumMiddleVertices 3 (["ax".toList].headD []).length
      (["xx".toList].headD []).length (["x1".toList].headD []).length < 1 ∧
    mkSequenceCreator 3 ["ax".toList] ["xx".toList] ["x1".toList] =
      .error "Number of connected vertices must be greater than one." := by
  refine ⟨rfl, rfl, by decide, by decide, by decide, by decide, ?_⟩
  exact claim_C10 3 ["ax".toList] ["xx".toList] ["x1".toList]
    ⟨["ax".toList], ["xx".toList], 2, 2, 1⟩
    ⟨["xx".toList], ["x1".toList], 2, 2, 1⟩
    {"xx".toList} {"xx".toList} rfl rfl (by decide) (by decide)
    (by decide) (by decide) (by decide)

end Glabra
